import Mathlib

/-!
Verification development for `nft_diff.py` (declarative nftables diff).

The Python source is shallowly embedded over `List Char` ("Str"):
  * texts and lines are lists of characters; line structure uses the LF
    terminator (the repository's inputs are LF-terminated UTF-8 text, and
    Python's `splitlines` is modelled on the LF separator);
  * Python character classes (`\s`, `\w`, `\d`) are modelled on their
    ASCII meaning, which is what the tool's nftables inputs use;
  * Python `dict` objects are modelled as association lists whose
    assignment (`d[k] = v`) replaces an existing binding in place or
    appends a fresh one, and `set` objects as duplicate-free lists with
    membership-guarded insertion;
  * the regular expressions of the source are compiled by hand into
    scanners that reproduce the leftmost-match, greedy/lazy and
    word-boundary behaviour of Python's `re` on the patterns in question;
  * functions that raise (`ValueError` from the brace scan, `KeyError`
    from a missing dict lookup) return `Option`, `none` meaning the raise;
  * loops that advance a cursor through the text are written with an
    explicit fuel argument (one unit per consumed character suffices, the
    wrappers pass `length + 1`), keeping every definition executable.
-/

namespace NftDiff

/-- Texts and lines are lists of characters. -/
abbrev Str := List Char

/-- Python `\s` on ASCII text: space, tab, LF, CR, vertical tab, form feed. -/
def isPySpace (c : Char) : Bool :=
  c = ' ' || c = '\t' || c = '\n' || c = '\x0d' || c = '\x0b' || c = '\x0c'

/-- Python `\w` on ASCII text: letters, digits, underscore. -/
def isWordChar (c : Char) : Bool :=
  c.isAlpha || c.isDigit || c = '_'

/-- Python `str.lstrip()`. -/
def pyLstrip (s : Str) : Str := s.dropWhile isPySpace

/-- Python `str.rstrip()`. -/
def pyRstrip (s : Str) : Str := (s.reverse.dropWhile isPySpace).reverse

/-- Python `str.strip()`. -/
def pyStrip (s : Str) : Str := pyRstrip (pyLstrip s)

/-- Split on LF, keeping a (possibly empty) piece after the last LF. -/
def splitNlRaw : Str → List Str
  | [] => [[]]
  | c :: rest =>
    if c = '\n' then [] :: splitNlRaw rest
    else
      match splitNlRaw rest with
      | l :: ls => (c :: l) :: ls
      | [] => [[c]]

/-- Python `str.splitlines()` on LF-terminated text: the piece after a final
terminator is not reported. -/
def pySplitlines (s : Str) : List Str :=
  let ls := splitNlRaw s
  if ls.getLast? = some [] then ls.dropLast else ls

/-- Python `"\n".join(lines)`. -/
def joinNl : List Str → Str
  | [] => []
  | [l] => l
  | l :: ls => l ++ '\n' :: joinNl ls

/-- Python `needle in hay` (substring containment). -/
def containsSub (needle : Str) : Str → Bool
  | [] => needle.isEmpty
  | c :: rest => needle.isPrefixOf (c :: rest) || containsSub needle rest

/-- Index of the first occurrence of `needle` in `hay`, if any
(Python `str.find` for a found needle). -/
def findSub (needle : Str) : Str → Option Nat
  | [] => if needle.isEmpty then some 0 else none
  | c :: rest =>
    if needle.isPrefixOf (c :: rest) then some 0
    else (findSub needle rest).map (· + 1)

/-- Fueled worker for Python `str.replace`: replace every non-overlapping
occurrence of `needle`, scanning left to right. -/
def replaceAllFuel (needle repl : Str) : Nat → Str → Str
  | 0, s => s
  | _ + 1, [] => []
  | fuel + 1, c :: rest =>
    if needle.isPrefixOf (c :: rest) then
      repl ++ replaceAllFuel needle repl fuel ((c :: rest).drop needle.length)
    else
      c :: replaceAllFuel needle repl fuel rest

/-- Python `hay.replace(needle, repl)` for a nonempty needle. -/
def replaceAll (needle repl hay : Str) : Str :=
  if needle.isEmpty then hay else replaceAllFuel needle repl hay.length hay

/-- Collapse each whitespace run into one space (`re.sub(r"\s+", " ", ·)`);
the flag records whether the previous character was part of a run. -/
def collapseWsAux : Bool → Str → Str
  | _, [] => []
  | prevSpace, c :: rest =>
    if isPySpace c then
      if prevSpace then collapseWsAux true rest
      else ' ' :: collapseWsAux true rest
    else c :: collapseWsAux false rest

/-- Source `normalize_spaces`: collapse whitespace to single spaces and
strip the ends. -/
def normalize_spaces (s : Str) : Str := collapseWsAux false (pyStrip s)

/-- Source `normalize_rule`: strip, drop one trailing semicolon, collapse
whitespace. -/
def normalize_rule (s : Str) : Str :=
  let s := pyStrip s
  let s := if s.getLast? = some ';' then s.dropLast else s
  normalize_spaces s

/-- Fueled worker for `re.sub(r"/\*.*?\*/", "", text, flags=re.S)`: a block
comment is removed only when its terminator exists (the lazy body requires
the closing `*/`); with no terminator ahead the rest of the text is kept. -/
def stripBlockFuel : Nat → Str → Str
  | 0, s => s
  | _ + 1, [] => []
  | fuel + 1, c :: rest =>
    if ['/', '*'].isPrefixOf (c :: rest) then
      match findSub ['*', '/'] (rest.drop 1) with
      | some j => stripBlockFuel fuel ((rest.drop 1).drop (j + 2))
      | none => c :: rest
    else c :: stripBlockFuel fuel rest

/-- Remove `/*...*/` block comments (lazy bodies, spanning newlines). -/
def stripBlockComments (s : Str) : Str := stripBlockFuel s.length s

/-- One `re.sub(r"\s*MARKER.*$", "", line)` pass on a newline-free line:
cut at the first occurrence of the marker and drop the whitespace run
immediately before it. -/
def stripAfterMarker (marker line : Str) : Str :=
  match findSub marker line with
  | some j => pyRstrip (line.take j)
  | none => line

/-- Trailing-comment stripping applied per line: first `//`, then `#`. -/
def stripLineComment (line : Str) : Str :=
  stripAfterMarker ['#'] (stripAfterMarker ['/', '/'] line)

/-- Source `strip_comments`: drop block comments, then strip trailing
line comments from every line of the result. -/
def strip_comments (text : Str) : Str :=
  joinNl ((pySplitlines (stripBlockComments text)).map stripLineComment)

/-! ### Alias normalizer (`input_filter` and its helpers) -/

/-- Match a literal from the front, returning the rest. -/
def parseLit : Str → Str → Option Str
  | [], cs => some cs
  | _ :: _, [] => none
  | p :: ps, c :: cs => if c = p then parseLit ps cs else none

/-- Regex `\s+`: at least one whitespace character, consumed greedily (the
patterns below always follow it with a non-whitespace literal, so the
maximal run is the only viable one). -/
def ws1 : Str → Option Str
  | [] => none
  | c :: cs => if isPySpace c then some (cs.dropWhile isPySpace) else none

/-- Regex `"?`: consume one double quote when present. -/
def optQuote (cs : Str) : Str :=
  match cs with
  | c :: rest => if c = '"' then rest else cs
  | [] => []

/-- Alternation `(DNAT|SNAT|MASQUERADE)` (first letters are distinct, so
the alternation is deterministic). -/
def parseKind (cs : Str) : Option (Str × Str) :=
  match parseLit "DNAT".data cs with
  | some r => some ("DNAT".data, r)
  | none =>
    match parseLit "SNAT".data cs with
    | some r => some ("SNAT".data, r)
    | none =>
      match parseLit "MASQUERADE".data cs with
      | some r => some ("MASQUERADE".data, r)
      | none => none

/-- Character class `[^\s;]`. -/
def nonWsSemi (c : Char) : Bool := !(isPySpace c) && c ≠ ';'

/-- Optional group `(?:\s+to\s*:\s*([^\s;]+))?` of the `xt target` regex:
returns the captured destination and the rest on success. -/
def parseToGroup (cs : Str) : Option (Str × Str) := do
  let r1 ← ws1 cs
  let r2 ← parseLit "to".data r1
  let r3 := r2.dropWhile isPySpace
  let r4 ← parseLit [':'] r3
  let r5 := r4.dropWhile isPySpace
  let dest := r5.takeWhile nonWsSemi
  if dest.isEmpty then none else some (dest, r5.drop dest.length)

/-- Lookahead `(?=\s|;|$)` (`$` without `re.M`, and an LF is whitespace). -/
def lookaheadOk (cs : Str) : Bool :=
  match cs with
  | [] => true
  | c :: _ => isPySpace c || c = ';'

/-- One attempted match of
`\bxt\s+target\s+"?(DNAT|SNAT|MASQUERADE)"?(?:\s+to\s*:\s*([^\s;]+))?(?=\s|;|$)`
at the head of `cs` (the caller has checked the word boundary), combined
with the source's `_xt_nat_sub` replacement function.  Returns the
replacement text and the rest after the match. -/
def tryXt (cs : Str) : Option (Str × Str) := do
  let r1 ← parseLit "xt".data cs
  let r2 ← ws1 r1
  let r3 ← parseLit "target".data r2
  let r4 ← ws1 r3
  let r5 := optQuote r4
  let (kind, r6) ← parseKind r5
  let r7 := optQuote r6
  match parseToGroup r7 with
  | some (dest, r8) =>
    let repl :=
      if kind = "MASQUERADE".data then "masquerade".data
      else if kind = "DNAT".data then "dnat to ".data ++ dest
      else "snat to ".data ++ dest
    some (repl, r8)
  | none =>
    if lookaheadOk r7 then
      let matched := cs.take (cs.length - r7.length)
      let repl := if kind = "MASQUERADE".data then "masquerade".data else matched
      some (repl, r7)
    else none

/-- Fueled `re.sub` scan for the `xt target` pattern: `prev` is the
character before the current position in the original text (`none` at the
start), used for the `\b` test; a successful match is replaced and the
scan resumes after it. -/
def xtScanAux : Nat → Option Char → Str → Str
  | 0, _, cs => cs
  | _ + 1, _, [] => []
  | fuel + 1, prev, c :: cs =>
    let boundary := match prev with | none => true | some p => !(isWordChar p)
    if boundary then
      match tryXt (c :: cs) with
      | some (repl, rest) =>
        repl ++ xtScanAux fuel (((c :: cs).take ((c :: cs).length - rest.length)).getLast?) rest
      | none => c :: xtScanAux fuel (some c) cs
    else c :: xtScanAux fuel (some c) cs

/-- The `xt_nat_re.sub(_xt_nat_sub, text)` pass of `input_filter`. -/
def xtNatPass (text : Str) : Str := xtScanAux (text.length + 1) none text

/-- One attempted match of `\bcounter\s+packets\s+\d+\s+bytes\s+\d+\b`
at the head of `cs` (word boundary checked by the caller); returns the
rest after the match. -/
def tryCounter (cs : Str) : Option Str := do
  let r1 ← parseLit "counter".data cs
  let r2 ← ws1 r1
  let r3 ← parseLit "packets".data r2
  let r4 ← ws1 r3
  let d1 := r4.takeWhile Char.isDigit
  if d1.isEmpty then none
  else do
    let r5 ← ws1 (r4.drop d1.length)
    let r6 ← parseLit "bytes".data r5
    let r7 ← ws1 r6
    let d2 := r7.takeWhile Char.isDigit
    if d2.isEmpty then none
    else
      match r7.drop d2.length with
      | [] => some []
      | c :: rest => if isWordChar c then none else some (c :: rest)

/-- Fueled `re.sub` scan replacing counter statements with bare `counter`. -/
def counterScanAux : Nat → Option Char → Str → Str
  | 0, _, cs => cs
  | _ + 1, _, [] => []
  | fuel + 1, prev, c :: cs =>
    let boundary := match prev with | none => true | some p => !(isWordChar p)
    if boundary then
      match tryCounter (c :: cs) with
      | some rest =>
        "counter".data ++
          counterScanAux fuel (((c :: cs).take ((c :: cs).length - rest.length)).getLast?) rest
      | none => c :: counterScanAux fuel (some c) cs
    else c :: counterScanAux fuel (some c) cs

/-- The `re.sub(r"\bcounter\s+packets\s+\d+\s+bytes\s+\d+\b", "counter", text)`
pass of `input_filter`. -/
def counterPass (text : Str) : Str := counterScanAux (text.length + 1) none text

/-! Companion-rule matcher for `_fix_xt_dnat_without_to`: the pattern
`ip6\s+daddr\s+([^\s]+).*?\b(tcp|udp)\s+dport\s+(\d+).*?\baccept\b`
(no `re.S`, so the lazy gaps stay on one line, while the `\s+` parts may
cross lines).  Backtracking is reproduced explicitly: the address and port
groups are greedy and retried at decreasing lengths, the gaps are lazy and
grown one character at a time. -/

/-- Lazy gap `.*?\baccept\b`: grow the gap (never across an LF) until
`accept` matches with word boundaries on both sides; `prev` is the
character before the current position. -/
def gapScanAccept : Char → Str → Option Str
  | prev, cs =>
    if !(isWordChar prev) && "accept".data.isPrefixOf cs
        && (match cs.drop 6 with | [] => true | c :: _ => !(isWordChar c)) then
      some (cs.drop 6)
    else
      match cs with
      | [] => none
      | c :: rest => if c = '\n' then none else gapScanAccept c rest

/-- Greedy `(\d+)` group followed by `.*?\baccept\b`: candidate digit-run
lengths tried in decreasing order (regex backtracking). -/
def portBack (run tail : Str) : Nat → Option (Str × Str)
  | 0 => none
  | l + 1 =>
    match gapScanAccept ((run.take (l + 1)).getLastD 'x')
        (run.drop (l + 1) ++ tail) with
    | some rest => some (run.take (l + 1), rest)
    | none => portBack run tail l

/-- Tail `(tcp|udp)\s+dport\s+(\d+).*?\baccept\b` attempted at the current
position, `prev` being the preceding character (for the `\b`). -/
def matchProtoPortAccept (prev : Char) (cs : Str) : Option (Str × Str × Str) := do
  if isWordChar prev then none
  else do
    let (proto, r1) ←
      match parseLit "tcp".data cs with
      | some r => some ("tcp".data, r)
      | none => (parseLit "udp".data cs).map (fun r => ("udp".data, r))
    let r2 ← ws1 r1
    let r3 ← parseLit "dport".data r2
    let r4 ← ws1 r3
    let run := r4.takeWhile Char.isDigit
    if run.isEmpty then none
    else
      (portBack run (r4.drop run.length) run.length).map (fun pr => (proto, pr.1, pr.2))

/-- Lazy gap `.*?` before the protocol part: grow the gap (never across an
LF), attempting the protocol tail at each position. -/
def gapScanProto : Char → Str → Option (Str × Str × Str)
  | prev, cs =>
    match matchProtoPortAccept prev cs with
    | some r => some r
    | none =>
      match cs with
      | [] => none
      | c :: rest => if c = '\n' then none else gapScanProto c rest

/-- Greedy `([^\s]+)` address group followed by the lazy gap and the
protocol tail: candidate lengths tried in decreasing order. -/
def addrBack (run tail : Str) : Nat → Option (Str × Str × Str × Str)
  | 0 => none
  | l + 1 =>
    match gapScanProto ((run.take (l + 1)).getLastD 'x') (run.drop (l + 1) ++ tail) with
    | some (proto, port, rest) => some (run.take (l + 1), proto, port, rest)
    | none => addrBack run tail l

/-- One attempted match of the whole companion pattern at the head of
`cs`: returns (address, protocol, port, rest after the match). -/
def matchIp6 (cs : Str) : Option (Str × Str × Str × Str) := do
  let r1 ← parseLit "ip6".data cs
  let r2 ← ws1 r1
  let r3 ← parseLit "daddr".data r2
  let r4 ← ws1 r3
  let run := r4.takeWhile (fun c => !(isPySpace c))
  if run.isEmpty then none
  else addrBack run (r4.drop run.length) run.length

/-- Fueled `re.finditer` scan for companion rules: leftmost matches, not
overlapping, groups collected in order. -/
def finditerDnat : Nat → Str → List (Str × Str × Str)
  | 0, _ => []
  | _ + 1, [] => []
  | fuel + 1, c :: cs =>
    match matchIp6 (c :: cs) with
    | some (addr, proto, port, rest) => (addr, proto, port) :: finditerDnat fuel rest
    | none => finditerDnat fuel cs

/-- Python `dict` lookup on an association list. -/
def dictGet {κ α : Type} [DecidableEq κ] : List (κ × α) → κ → Option α
  | [], _ => none
  | (k', v) :: d, k => if k = k' then some v else dictGet d k

/-- Python `dict` assignment `d[k] = v`: replace the binding in place, or
append a fresh one. -/
def dictSet {κ α : Type} [DecidableEq κ] : List (κ × α) → κ → α → List (κ × α)
  | [], k, v => [(k, v)]
  | (k', v') :: d, k, v => if k = k' then (k, v) :: d else (k', v') :: dictSet d k v

/-- The keys of an association list. -/
def dictKeys {κ α : Type} (d : List (κ × α)) : List κ := d.map Prod.fst

/-- Python `set.add`: duplicate-free insertion. -/
def addrInsert (s : List Str) (a : Str) : List Str := if a ∈ s then s else s ++ [a]

/-- The `mapping` built by `_fix_xt_dnat_without_to`:
`(proto, port) ↦` set of companion addresses. -/
def companionMapping (text : Str) : List ((Str × Str) × List Str) :=
  (finditerDnat (text.length + 1) text).foldl
    (fun m t =>
      dictSet m (t.2.1, t.2.2) (addrInsert ((dictGet m (t.2.1, t.2.2)).getD []) t.1))
    []

/-- One attempted match of `\b(tcp|udp)\s+dport\s+(\d+)\b` at the head of
the line (word boundary checked by the caller). -/
def tryProtoPort (cs : Str) : Option (Str × Str) := do
  let (proto, r1) ←
    match parseLit "tcp".data cs with
    | some r => some ("tcp".data, r)
    | none => (parseLit "udp".data cs).map (fun r => ("udp".data, r))
  let r2 ← ws1 r1
  let r3 ← parseLit "dport".data r2
  let r4 ← ws1 r3
  let run := r4.takeWhile Char.isDigit
  if run.isEmpty then none
  else
    match r4.drop run.length with
    | [] => some (proto, run)
    | c :: _ => if isWordChar c then none else some (proto, run)

/-- The word boundary `\b` before the protocol word: start of string, or a
non-word previous character. -/
def isBoundary : Option Char → Bool
  | none => true
  | some p => !(isWordChar p)

/-- `re.search(r"\b(tcp|udp)\s+dport\s+(\d+)\b", line)`: first match's
groups. -/
def protoPortFind : Option Char → Str → Option (Str × Str)
  | _, [] => none
  | prev, c :: cs =>
    match (if isBoundary prev then tryProtoPort (c :: cs) else none) with
    | some r => some r
    | none => protoPortFind (some c) cs

/-- The literal `xt target "DNAT"`. -/
def dnatNeedle : Str := "xt target \"DNAT\"".data

/-- Bracket an address containing a colon unless already bracketed. -/
def fmtAddr (a : Str) : Str :=
  if a.any (fun c => c = ':') &&
      !(a.head? = some '[' && a.getLast? = some ']') then
    '[' :: (a ++ [']'])
  else a

/-- Per-line body of the loop of `_fix_xt_dnat_without_to`. -/
def fixLine (m : List ((Str × Str) × List Str)) (line : Str) : Str :=
  let bad := containsSub dnatNeedle line && !(containsSub "to:".data line)
  if bad && !(containsSub "dnat to".data line) then
    match protoPortFind none line with
    | some (proto, port) =>
      match (dictGet m (proto, port)).getD [] with
      | [a] => replaceAll dnatNeedle ("dnat to ".data ++ fmtAddr a ++ ':' :: port) line
      | _ => line
    | none => line
  else line

/-- Source `_fix_xt_dnat_without_to`. -/
def _fix_xt_dnat_without_to (text : Str) : Str :=
  joinNl ((pySplitlines text).map (fixLine (companionMapping text)))

/-- Source `input_filter`: the `xt target` rewrite, then the counter
rewrite, then the DNAT destination inference. -/
def input_filter (text : Str) : Str :=
  _fix_xt_dnat_without_to (counterPass (xtNatPass text))

/-! ### Data model -/

/-- Source `Chain` dataclass (the `_norm_rules` cache is exposed below as
the derived view `normalized_rules`; parsed chains are always finalized
right after parsing, so the cache always holds exactly that value). -/
structure Chain where
  name : Str
  indent : Str
  header_lines : List Str
  rules : List Str
  blank_between_header_and_rules : Bool
deriving DecidableEq, Repr

/-- The normalized rule set `finalize` computes
(`{normalize_rule(ln.lstrip()) for ln in self.rules}`); Python-set
membership is list membership, which is all the set is used for. -/
def Chain.normalized_rules (c : Chain) : List Str :=
  c.rules.map (fun ln => normalize_rule (pyLstrip ln))

/-- Source `Chain.diff_rules_originals`: original rule lines of `c` whose
normalized form is absent from `other`'s normalized rule set (order of `c`
preserved); all rules when `other` is `None`. -/
def Chain.diff_rules_originals (c : Chain) (other : Option Chain) : List Str :=
  match other with
  | none => c.rules
  | some o =>
    c.rules.filter (fun ln => decide (normalize_rule (pyLstrip ln) ∉ o.normalized_rules))

/-- Source `Table` dataclass. -/
structure Table where
  family : Str
  name : Str
  indent : Str
  chains_in_order : List Str
  chains : List (Str × Chain)
deriving DecidableEq, Repr

/-- Source `Table.key`. -/
def Table.key (t : Table) : Str × Str := (t.family, t.name)

/-- Source `Ruleset` dataclass. -/
structure Ruleset where
  tables_in_order : List (Str × Str)
  tables : List ((Str × Str) × Table)
deriving DecidableEq, Repr

/-! ### Brace-scoped parser -/

/-- Contribution of one character to the brace nesting depth. -/
def braceCharDelta (c : Char) : Int :=
  if c = '\x7b' then 1 else if c = '\x7d' then -1 else 0

/-- One step of the depth update of `_find_matching_brace`'s loop
(increment at `{`, decrement at `}`). -/
def braceStep (c : Char) (d : Int) : Int := d + braceCharDelta c

/-- Depth-tracking scan of `_find_matching_brace`: the position is
returned when a `}` takes the depth to zero. -/
def findCloseAux : Str → Int → Nat → Option Nat
  | [], _, _ => none
  | c :: rest, depth, pos =>
    if c = '\x7d' && braceStep c depth = 0 then some pos
    else findCloseAux rest (braceStep c depth) (pos + 1)

/-- Source `_find_matching_brace` (`none` models the `ValueError` raises:
position not at a `{`, or no matching `}` before the end). -/
def _find_matching_brace (text : Str) (openPos : Nat) : Option Nat :=
  match text.drop openPos with
  | c :: rest =>
    if c = '\x7b' then findCloseAux (c :: rest) 0 openPos else none
  | [] => none

/-- Largest index of `c` in `l`, if any. -/
def lastIdxOf (c : Char) (l : Str) : Option Nat :=
  match findSub [c] l.reverse with
  | some j => some (l.length - 1 - j)
  | none => none

/-- The greedy name-then-brace tail `(\S+)\s*\{` of the header patterns:
the name run is maximal-first, so either whitespace-then-brace follows the
full non-whitespace run, or the name is cut just before the last `{`
inside the run (the cut may not leave the name empty).  Returns the name
and the suffix starting at the opening brace. -/
def nameBrace (run afterRun : Str) : Option (Str × Str) :=
  match afterRun.dropWhile isPySpace with
  | c :: w =>
    if c = '\x7b' then some (run, c :: w)
    else
      match lastIdxOf '\x7b' run with
      | some k => if 1 ≤ k then some (run.take k, run.drop k ++ afterRun) else none
      | none => none
  | [] =>
    match lastIdxOf '\x7b' run with
    | some k => if 1 ≤ k then some (run.take k, run.drop k ++ afterRun) else none
    | none => none

/-- One attempted match of `(^[ \t]*)table\s+(\S+)\s+(\S+)\s*\{` at a
line-start position: (indent, family, name, suffix at the brace). -/
def tryTableHeader (cs : Str) : Option (Str × Str × Str × Str) := do
  let indent := cs.takeWhile (fun c => c = ' ' || c = '\t')
  let r1 ← parseLit "table".data (cs.drop indent.length)
  let r2 ← ws1 r1
  let fam := r2.takeWhile (fun c => !(isPySpace c))
  if fam.isEmpty then none
  else do
    let r3 ← ws1 (r2.drop fam.length)
    let run := r3.takeWhile (fun c => !(isPySpace c))
    if run.isEmpty then none
    else
      (nameBrace run (r3.drop run.length)).map (fun nb => (indent, fam, nb.1, nb.2))

/-- `re.search` scan for the table header with `re.M`: position 0 of the
searched slice counts as a line start, as does any position after an LF. -/
def searchTableAux : Bool → Str → Option (Str × Str × Str × Str)
  | _, [] => none
  | atStart, c :: cs =>
    match (if atStart then tryTableHeader (c :: cs) else none) with
    | some r => some r
    | none => searchTableAux (c = '\n') cs

/-- Search a slice for the next table header. -/
def searchTable (cs : Str) : Option (Str × Str × Str × Str) := searchTableAux true cs

/-- One attempted match of `(^[ \t]*)chain\s+(\S+)\s*\{` at a line-start
position: (indent, name, suffix at the brace). -/
def tryChainHeader (cs : Str) : Option (Str × Str × Str) := do
  let indent := cs.takeWhile (fun c => c = ' ' || c = '\t')
  let r1 ← parseLit "chain".data (cs.drop indent.length)
  let r2 ← ws1 r1
  let run := r2.takeWhile (fun c => !(isPySpace c))
  if run.isEmpty then none
  else
    (nameBrace run (r2.drop run.length)).map (fun nb => (indent, nb.1, nb.2))

/-- `re.search` scan for the chain header (same line-start convention). -/
def searchChainAux : Bool → Str → Option (Str × Str × Str)
  | _, [] => none
  | atStart, c :: cs =>
    match (if atStart then tryChainHeader (c :: cs) else none) with
    | some r => some r
    | none => searchChainAux (c = '\n') cs

/-- Search a slice for the next chain header. -/
def searchChain (cs : Str) : Option (Str × Str × Str) := searchChainAux true cs

/-- The line-classification loop over a chain body: state is
(headers, rules, blank-separator flag, saw_header, pending_blank). -/
def chainBodyLoop :
    List Str → List Str → List Str → Bool → Bool → Bool → List Str × List Str × Bool
  | [], headers, rules, flag, _, _ => (headers, rules, flag)
  | line0 :: restLines, headers, rules, flag, sawHeader, pendingBlank =>
    let line := pyRstrip line0
    if (pyStrip line).isEmpty then
      chainBodyLoop restLines headers rules flag sawHeader
        (if sawHeader && rules.isEmpty then true else pendingBlank)
    else
      let content := pyLstrip line
      let isHeader := content.getLast? = some ';' &&
        ("type ".data.isPrefixOf content ||
          containsSub " hook ".data (' ' :: (content ++ [' '])) ||
          containsSub " priority ".data (' ' :: (content ++ [' '])) ||
          "policy ".data.isPrefixOf content ||
          "flags ".data.isPrefixOf content)
      if isHeader && rules.isEmpty then
        chainBodyLoop restLines (headers ++ [line]) rules flag true pendingBlank
      else
        if sawHeader && pendingBlank then
          chainBodyLoop restLines headers (rules ++ [line]) true sawHeader false
        else
          chainBodyLoop restLines headers (rules ++ [line]) flag sawHeader pendingBlank

/-- Build one `Chain` from a chain body slice. -/
def parseChainBody (cname indent : Str) (body : Str) : Chain :=
  let st := chainBodyLoop (pySplitlines body) [] [] false false false
  Chain.mk cname indent st.1 st.2.1 st.2.2

/-- Fueled chain loop of `_parse_table_body_into`; `none` models the
propagated `ValueError` of an unmatched brace. -/
def tableChainsLoop :
    Nat → Str → List Str → List (Str × Chain) → Option (List Str × List (Str × Chain))
  | 0, _, _, _ => none
  | fuel + 1, body, ord, chs =>
    match searchChain body with
    | none => some (ord, chs)
    | some (indent, cname, braceSuffix) =>
      match _find_matching_brace braceSuffix 0 with
      | none => none
      | some j =>
        let ch := parseChainBody cname indent ((braceSuffix.drop 1).take (j - 1))
        tableChainsLoop fuel (braceSuffix.drop (j + 1)) (ord ++ [cname]) (dictSet chs cname ch)

/-- Source `_parse_table_body_into`: the chain order and chain dict of a
table body. -/
def parseTableBody (body : Str) : Option (List Str × List (Str × Chain)) :=
  tableChainsLoop (body.length + 1) body [] []

/-- Fueled table loop of `Ruleset.parse`. -/
def parseLoop :
    Nat → Str → List (Str × Str) → List ((Str × Str) × Table) → Option Ruleset
  | 0, _, _, _ => none
  | fuel + 1, cs, ord, tbls =>
    match searchTable cs with
    | none => some (Ruleset.mk ord tbls)
    | some (indent, fam, tname, braceSuffix) =>
      match _find_matching_brace braceSuffix 0 with
      | none => none
      | some j =>
        match parseTableBody ((braceSuffix.drop 1).take (j - 1)) with
        | none => none
        | some (cord, chs) =>
          let tbl := Table.mk fam tname indent cord chs
          parseLoop fuel (braceSuffix.drop (j + 1))
            (ord ++ [(fam, tname)]) (dictSet tbls (fam, tname) tbl)

/-- Source `Ruleset.parse`: strip comments, then repeatedly locate a table
header and its matching brace; `none` models the propagated `ValueError`. -/
def Ruleset.parse (text : Str) : Option Ruleset :=
  let clean := strip_comments text
  parseLoop (clean.length + 1) clean [] []

/-- Source `Ruleset.get_table`. -/
def Ruleset.get_table (r : Ruleset) (fam name : Str) : Option Table :=
  dictGet r.tables (fam, name)

/-! ### Delta renderer -/

/-- The render entries: chain name, chain, and `none` for a full chain or
`some extras` for a partial one. -/
abbrev RenderEntry := Str × Chain × Option (List Str)

/-- The lines the renderer emits for one entry: a full chain prints its
header lines, the recorded blank separator, and all rules; a partial chain
prints only the extra rule lines. -/
def renderChainLines (cname : Str) (chain : Chain) (extras : Option (List Str)) : List Str :=
  (chain.indent ++ "chain ".data ++ cname ++ " \x7b".data)
    :: (match extras with
        | none =>
          chain.header_lines ++
            (if chain.blank_between_header_and_rules && !chain.rules.isEmpty
             then [([] : Str)] else []) ++
            chain.rules
        | some ex => ex)
    ++ [chain.indent ++ ['\x7d']]

/-- Blank separator line between successive chain blocks of one table. -/
def interBlank : List (List Str) → List Str
  | [] => []
  | [b] => b
  | b :: b' :: bs => b ++ ([] : Str) :: interBlank (b' :: bs)

/-- Full-emission branch of `_compute_chains_to_render` (base table absent):
every chain in declaration order, full. -/
def chainsFullEntries : List Str → List (Str × Chain) → Option (List RenderEntry)
  | [], _ => some []
  | c :: rest, chains => do
    let ch ← dictGet chains c
    let es ← chainsFullEntries rest chains
    some ((c, ch, none) :: es)

/-- First loop of `_compute_chains_to_render`: chains absent from the base
table are rendered in full. -/
def loopNewChains (cur base : Table) : List Str → Option (List RenderEntry)
  | [] => some []
  | c :: rest =>
    if (dictGet base.chains c).isSome then loopNewChains cur base rest
    else do
      let ch ← dictGet cur.chains c
      let es ← loopNewChains cur base rest
      some ((c, ch, none) :: es)

/-- Second loop of `_compute_chains_to_render`: chains present in both get
their novel rule lines, and are skipped when there are none. -/
def loopCommonChains (cur base : Table) : List Str → Option (List RenderEntry)
  | [] => some []
  | c :: rest =>
    match dictGet base.chains c with
    | none => loopCommonChains cur base rest
    | some bch => do
      let ch ← dictGet cur.chains c
      let es ← loopCommonChains cur base rest
      if (ch.diff_rules_originals (some bch)).isEmpty then some es
      else some ((c, ch, some (ch.diff_rules_originals (some bch))) :: es)

/-- Source `_compute_chains_to_render` (`none` models a `KeyError` on a
chain listed in the order but missing from the dict). -/
def _compute_chains_to_render (cur : Table) (baseTbl : Option Table) :
    Option (List RenderEntry) :=
  match baseTbl with
  | none => chainsFullEntries cur.chains_in_order cur.chains
  | some base => do
    let l1 ← loopNewChains cur base cur.chains_in_order
    let l2 ← loopCommonChains cur base cur.chains_in_order
    some (l1 ++ l2)

/-- The output lines for one table with a nonempty entry list. -/
def renderTableLines (t : Table) (entries : List RenderEntry) : List Str :=
  (t.indent ++ "table ".data ++ t.family ++ ' ' :: (t.name ++ " \x7b".data))
    :: interBlank (entries.map (fun e => renderChainLines e.1 e.2.1 e.2.2))
    ++ [t.indent ++ ['\x7d']]

/-- The table loop of `render_declarative_delta`, accumulating the global
output line list. -/
def renderTablesAux (cur base : Ruleset) : List (Str × Str) → Option (List Str)
  | [] => some []
  | k :: ks => do
    let t ← dictGet cur.tables k
    let entries ← _compute_chains_to_render t (dictGet base.tables k)
    let rest ← renderTablesAux cur base ks
    some ((if entries.isEmpty then [] else renderTableLines t entries) ++ rest)

/-- Source `Ruleset.render_declarative_delta`: joined output lines plus a
final LF when anything was emitted (`none` models a `KeyError` on a table
listed in the order but missing from the dict). -/
def Ruleset.render_declarative_delta (cur base : Ruleset) : Option Str :=
  (renderTablesAux cur base cur.tables_in_order).map
    (fun out => joinNl out ++ (if out.isEmpty then [] else ['\n']))

/-! ### Lemmas: line splitting, joining, substrings -/

theorem splitNlRaw_ne_nil (s : Str) : splitNlRaw s ≠ [] := by
  cases s with
  | nil => simp [splitNlRaw]
  | cons c rest =>
    simp only [splitNlRaw]
    split
    · simp
    · split <;> simp

theorem joinNl_cons_cons (a b : Str) (ls : List Str) :
    joinNl (a :: b :: ls) = a ++ '\n' :: joinNl (b :: ls) := rfl

theorem joinNl_splitNlRaw (s : Str) : joinNl (splitNlRaw s) = s := by
  induction s with
  | nil => rfl
  | cons c rest ih =>
    simp only [splitNlRaw]
    by_cases hc : c = '\n'
    · subst hc
      simp only [if_pos rfl]
      obtain ⟨l, ls, hls⟩ : ∃ l ls, splitNlRaw rest = l :: ls := by
        cases h : splitNlRaw rest with
        | nil => exact absurd h (splitNlRaw_ne_nil rest)
        | cons l ls => exact ⟨l, ls, rfl⟩
      rw [hls] at ih ⊢
      simpa [joinNl_cons_cons] using ih
    · rw [if_neg hc]
      obtain ⟨l, ls, hls⟩ : ∃ l ls, splitNlRaw rest = l :: ls := by
        cases h : splitNlRaw rest with
        | nil => exact absurd h (splitNlRaw_ne_nil rest)
        | cons l ls => exact ⟨l, ls, rfl⟩
      rw [hls] at ih ⊢
      cases ls with
      | nil => simpa [joinNl] using congrArg (c :: ·) ih
      | cons b bs =>
        rw [joinNl_cons_cons] at ih
        simpa [joinNl_cons_cons] using congrArg (c :: ·) ih

theorem mem_splitNlRaw_no_nl (s : Str) : ∀ l ∈ splitNlRaw s, '\n' ∉ l := by
  induction s with
  | nil => simp [splitNlRaw]
  | cons c rest ih =>
    intro l hl
    simp only [splitNlRaw] at hl
    by_cases hc : c = '\n'
    · rw [if_pos hc] at hl
      rcases List.mem_cons.1 hl with h | h
      · simp [h]
      · exact ih l h
    · rw [if_neg hc] at hl
      cases h : splitNlRaw rest with
      | nil => exact absurd h (splitNlRaw_ne_nil rest)
      | cons x xs =>
        rw [h] at hl
        rcases List.mem_cons.1 hl with h1 | h1
        · subst h1
          intro hmem
          rcases List.mem_cons.1 hmem with h2 | h2
          · exact hc h2.symm
          · exact ih x (h ▸ List.mem_cons_self x xs) h2
        · exact ih l (h ▸ List.mem_cons_of_mem x h1)

theorem splitNlRaw_no_nl_self (s : Str) (h : '\n' ∉ s) : splitNlRaw s = [s] := by
  induction s with
  | nil => rfl
  | cons c rest ih =>
    have hc : c ≠ '\n' := fun hc => h (hc ▸ List.mem_cons_self c rest)
    have hrest : '\n' ∉ rest := fun hm => h (List.mem_cons_of_mem c hm)
    simp only [splitNlRaw, if_neg hc, ih hrest]

theorem splitNlRaw_append_nl (a t : Str) (h : '\n' ∉ a) :
    splitNlRaw (a ++ '\n' :: t) = a :: splitNlRaw t := by
  induction a with
  | nil => simp [splitNlRaw]
  | cons c a' ih =>
    have hc : c ≠ '\n' := fun hc => h (hc ▸ List.mem_cons_self c a')
    have ha' : '\n' ∉ a' := fun hm => h (List.mem_cons_of_mem c hm)
    simp only [List.cons_append, splitNlRaw, if_neg hc, List.append_eq, ih ha']

theorem splitNlRaw_joinNl (ls : List Str) (h : ∀ l ∈ ls, '\n' ∉ l) (hne : ls ≠ []) :
    splitNlRaw (joinNl ls) = ls := by
  induction ls with
  | nil => exact absurd rfl hne
  | cons a rest ih =>
    cases rest with
    | nil =>
      simp only [joinNl]
      exact splitNlRaw_no_nl_self a (h a (List.mem_cons_self a []))
    | cons b bs =>
      rw [joinNl_cons_cons,
        splitNlRaw_append_nl a (joinNl (b :: bs)) (h a (List.mem_cons_self a (b :: bs))),
        ih (fun l hl => h l (List.mem_cons_of_mem a hl)) (by simp)]

theorem pySplitlines_joinNl (ls : List Str) (h : ∀ l ∈ ls, '\n' ∉ l) (hne : ls ≠ []) :
    pySplitlines (joinNl ls) =
      if ls.getLast? = some [] then ls.dropLast else ls := by
  unfold pySplitlines
  rw [splitNlRaw_joinNl ls h hne]

theorem splitNlRaw_getLast_ne_nil :
    ∀ s : Str, s ≠ [] → s.getLast? ≠ some '\n' → (splitNlRaw s).getLast? ≠ some [] := by
  intro s
  induction s with
  | nil => intro h; exact absurd rfl h
  | cons c rest ih =>
    intro _ h
    cases rest with
    | nil =>
      have hc : c ≠ '\n' := by
        intro hc; exact h (by simp [hc])
      simp [splitNlRaw, hc]
    | cons d ds =>
      have h2 : (d :: ds).getLast? ≠ some '\n' := by
        intro hc; exact h (by simpa [List.getLast?_cons_cons] using hc)
      have ih2 := ih (by simp) h2
      have hstep : splitNlRaw (c :: d :: ds) =
          if c = '\n' then [] :: splitNlRaw (d :: ds)
          else
            match splitNlRaw (d :: ds) with
            | l :: ls => (c :: l) :: ls
            | [] => [[c]] := rfl
      rw [hstep]
      by_cases hc : c = '\n'
      · rw [if_pos hc]
        cases hr : splitNlRaw (d :: ds) with
        | nil => exact absurd hr (splitNlRaw_ne_nil _)
        | cons x xs =>
          rw [hr] at ih2
          simpa [List.getLast?_cons_cons] using ih2
      · rw [if_neg hc]
        cases hr : splitNlRaw (d :: ds) with
        | nil => exact absurd hr (splitNlRaw_ne_nil _)
        | cons x xs =>
          rw [hr] at ih2
          cases xs with
          | nil => simp
          | cons y ys =>
            simpa [List.getLast?_cons_cons] using ih2

theorem joinNl_pySplitlines (s : Str) (h : s.getLast? ≠ some '\n') :
    joinNl (pySplitlines s) = s := by
  cases s with
  | nil => rfl
  | cons c rest =>
    unfold pySplitlines
    rw [if_neg (splitNlRaw_getLast_ne_nil (c :: rest) (by simp) h)]
    exact joinNl_splitNlRaw (c :: rest)

theorem mem_pySplitlines_mem_raw (s l : Str) (hl : l ∈ pySplitlines s) :
    l ∈ splitNlRaw s := by
  by_cases h : (splitNlRaw s).getLast? = some []
  · have he : pySplitlines s = (splitNlRaw s).dropLast := by
      simp [pySplitlines, h]
    exact List.mem_of_mem_dropLast (he ▸ hl)
  · have he : pySplitlines s = splitNlRaw s := by
      simp [pySplitlines, h]
    exact he ▸ hl

theorem mem_pySplitlines_no_nl (s : Str) : ∀ l ∈ pySplitlines s, '\n' ∉ l := by
  intro l hl
  exact mem_splitNlRaw_no_nl s l (mem_pySplitlines_mem_raw s l hl)

theorem mem_joinNl_infix : ∀ (ls : List Str) (l : Str), l ∈ ls → l <:+: joinNl ls := by
  intro ls
  induction ls with
  | nil => simp
  | cons a rest ih =>
    intro l hl
    cases rest with
    | nil =>
      have : l = a := by simpa using hl
      subst this
      exact List.infix_refl l
    | cons b bs =>
      rcases List.mem_cons.1 hl with h | h
      · subst h
        rw [joinNl_cons_cons]
        exact (List.prefix_append l ('\n' :: joinNl (b :: bs))).isInfix
      · have h1 := ih l h
        rw [joinNl_cons_cons]
        have h2 : joinNl (b :: bs) <:+ a ++ '\n' :: joinNl (b :: bs) := by
          have := List.suffix_cons '\n' (joinNl (b :: bs))
          exact this.trans (List.suffix_append a ('\n' :: joinNl (b :: bs)))
        exact h1.trans h2.isInfix

theorem infix_of_mem_pySplitlines (s l : Str) (hl : l ∈ pySplitlines s) : l <:+: s := by
  have h1 := mem_joinNl_infix (splitNlRaw s) l (mem_pySplitlines_mem_raw s l hl)
  rwa [joinNl_splitNlRaw s] at h1

theorem containsSub_infix_iff (n h : Str) : containsSub n h = true ↔ n <:+: h := by
  induction h with
  | nil => simp [containsSub, List.isEmpty_iff]
  | cons c rest ih =>
    simp only [containsSub, Bool.or_eq_true, List.isPrefixOf_iff_prefix, ih,
      List.infix_cons_iff]

theorem containsSub_eq_false_of_infix {n l s : Str} (hinf : l <:+: s)
    (h : containsSub n s = false) : containsSub n l = false := by
  by_contra hc
  have h1 : containsSub n l = true := by
    cases h2 : containsSub n l with
    | false => exact absurd h2 hc
    | true => rfl
  have := (containsSub_infix_iff n s).2 (((containsSub_infix_iff n l).1 h1).trans hinf)
  rw [this] at h
  exact Bool.true_eq_false.mp h

theorem findSub_isSome_eq (n : Str) : ∀ h : Str, (findSub n h).isSome = containsSub n h := by
  intro h
  induction h with
  | nil =>
    by_cases hn : n.isEmpty <;> simp [findSub, containsSub, hn]
  | cons c rest ih =>
    simp only [findSub, containsSub]
    by_cases hp : n.isPrefixOf (c :: rest)
    · simp [hp]
    · simp only [hp, if_neg, Bool.false_or]
      rw [← ih]
      cases findSub n rest <;> simp

theorem findSub_eq_none_of_not_contains {n h : Str} (hc : containsSub n h = false) :
    findSub n h = none := by
  have := findSub_isSome_eq n h
  rw [hc] at this
  exact Option.not_isSome_iff_eq_none.mp (by simp [this])

theorem prefix_of_pyRstrip (s : Str) : pyRstrip s <+: s := by
  have h := @List.dropWhile_suffix _ s.reverse isPySpace
  have := List.reverse_prefix.2 (by simpa using h)
  simpa [pyRstrip] using this

theorem prefix_of_stripAfterMarker (m l : Str) : stripAfterMarker m l <+: l := by
  unfold stripAfterMarker
  cases findSub m l with
  | none => exact List.prefix_refl l
  | some j => exact (prefix_of_pyRstrip (l.take j)).trans (List.take_prefix j l)

theorem prefix_of_stripLineComment (l : Str) : stripLineComment l <+: l :=
  (prefix_of_stripAfterMarker _ _).trans (prefix_of_stripAfterMarker _ _)

theorem stripAfterMarker_no_marker {m l : Str} (h : containsSub m l = false) :
    stripAfterMarker m l = l := by
  unfold stripAfterMarker
  rw [findSub_eq_none_of_not_contains h]

theorem containsSub_false_tail {n : Str} {c : Char} {rest : Str}
    (h : containsSub n (c :: rest) = false) : containsSub n rest = false := by
  have hinf : rest <:+: c :: rest := (List.suffix_cons c rest).isInfix
  exact containsSub_eq_false_of_infix hinf h

theorem containsSub_false_drop {n : Str} {s : Str} (k : Nat)
    (h : containsSub n s = false) : containsSub n (s.drop k) = false :=
  containsSub_eq_false_of_infix (List.drop_suffix k s).isInfix h

theorem findSub_spec (M : Str) : ∀ (s : Str) (m : Nat), findSub M s = some m →
    M.isPrefixOf (s.drop m) = true := by
  intro s
  induction s with
  | nil =>
    intro m h
    unfold findSub at h
    split at h
    · next he =>
      obtain rfl : 0 = m := Option.some_inj.1 h
      simp only [List.drop_nil]
      simpa [List.isPrefixOf, List.isEmpty_iff] using he
    · exact absurd h (by simp)
  | cons c rest ih =>
    intro m h
    rw [show findSub M (c :: rest) = (if M.isPrefixOf (c :: rest) then some 0
        else (findSub M rest).map (· + 1)) from rfl] at h
    split at h
    · next hp =>
      obtain rfl : 0 = m := Option.some_inj.1 h
      simpa using hp
    · obtain ⟨m', hm', rfl⟩ := Option.map_eq_some'.mp h
      simpa using ih m' hm'

theorem findSub_append_at (M : Str) :
    ∀ (u tail : Str), M.isPrefixOf tail = true →
      (∀ k, k < u.length → M.isPrefixOf ((u ++ tail).drop k) = false) →
      findSub M (u ++ tail) = some u.length := by
  intro u
  induction u with
  | nil =>
    intro tail hhit _
    cases tail with
    | nil =>
      have : M = [] := by simpa [List.isPrefixOf, List.isEmpty_iff] using hhit
      subst this
      rfl
    | cons c cs =>
      simp only [List.nil_append]
      rw [show findSub M (c :: cs) = (if M.isPrefixOf (c :: cs) then some 0
          else (findSub M cs).map (· + 1)) from rfl, if_pos hhit]
      simp
  | cons a u ih =>
    intro tail hhit hno
    have hhd : M.isPrefixOf (a :: (u ++ tail)) = false := by
      simpa using hno 0 (by simp)
    rw [show ((a :: u) ++ tail) = a :: (u ++ tail) from rfl,
      show findSub M (a :: (u ++ tail)) = (if M.isPrefixOf (a :: (u ++ tail)) then some 0
        else (findSub M (u ++ tail)).map (· + 1)) from rfl, hhd]
    rw [if_neg (by simp)]
    rw [ih tail hhit (fun k hk => by simpa using hno (k + 1) (by simp; omega))]
    simp

theorem no_window_of_containsSub_false (m0 m1 : Char) (u tail : Str)
    (h : containsSub [m0, m1] (u ++ tail.take 1) = false) :
    ∀ k, k < u.length → ([m0, m1] : Str).isPrefixOf ((u ++ tail).drop k) = false := by
  intro k hk
  cases hp : ([m0, m1] : Str).isPrefixOf ((u ++ tail).drop k) with
  | false => rfl
  | true =>
    exfalso
    have hpre : ([m0, m1] : Str) = ((u ++ tail).drop k).take 2 :=
      List.prefix_iff_eq_take.mp (List.isPrefixOf_iff_prefix.mp hp)
    have hinf : ([m0, m1] : Str) <:+: (u ++ tail).take (k + 2) := by
      rw [List.take_add, ← hpre]
      exact ⟨(u ++ tail).take k, [], by simp⟩
    have htk : (u ++ tail).take (k + 2) <+: u ++ tail.take 1 := by
      have e1 : (u ++ tail).take (k + 2) = (u ++ tail.take 1).take (k + 2) := by
        rw [List.take_append_eq_append_take, List.take_append_eq_append_take, List.take_take]
        have : min (k + 2 - u.length) 1 = k + 2 - u.length := by omega
        rw [this]
      rw [e1]
      exact List.take_prefix _ _
    have : containsSub [m0, m1] (u ++ tail.take 1) = true :=
      (containsSub_infix_iff _ _).2 (hinf.trans htk.isInfix)
    rw [h] at this
    exact Bool.noConfusion this

theorem concat_inj_of_eq {α : Type} {l1 l2 : List α} {a b : α}
    (h : l1 ++ [a] = l2 ++ [b]) : l1 = l2 ∧ a = b := by
  have h1 := congrArg List.dropLast h
  have h2 := congrArg List.getLast? h
  simp [List.dropLast_concat] at h1 h2
  exact ⟨h1, h2⟩

theorem containsSub_concat_ne (m0 m1 c : Char) (B : Str) (hc : m1 ≠ c)
    (hB : containsSub [m0, m1] B = false) : containsSub [m0, m1] (B ++ [c]) = false := by
  cases hcon : containsSub [m0, m1] (B ++ [c]) with
  | false => rfl
  | true =>
    exfalso
    obtain ⟨s, t, hst⟩ := (containsSub_infix_iff _ _).1 hcon
    rcases List.eq_nil_or_concat t with rfl | ⟨t', a, rfl⟩
    · have hst' : s ++ [m0, m1] = B ++ [c] := by simpa using hst
      have : (s ++ [m0]) ++ [m1] = B ++ [c] := by simpa [List.append_assoc] using hst'
      exact hc (concat_inj_of_eq this).2
    · rw [List.concat_eq_append] at hst
      have hre : (s ++ [m0, m1] ++ t') ++ [a] = B ++ [c] := by
        simpa [List.append_assoc] using hst
      have hinit : s ++ [m0, m1] ++ t' = B := (concat_inj_of_eq hre).1
      have : containsSub [m0, m1] B = true :=
        (containsSub_infix_iff _ _).2 ⟨s, t', hinit⟩
      rw [hB] at this
      exact Bool.noConfusion this

theorem findSub_marker_mid (m0 m1 : Char) (hne : m1 ≠ m0) (B C : Str)
    (hB : containsSub [m0, m1] B = false) :
    findSub [m0, m1] (B ++ [m0, m1] ++ C) = some B.length := by
  rw [List.append_assoc]
  apply findSub_append_at [m0, m1] B ([m0, m1] ++ C) (by simp [List.isPrefixOf])
  apply no_window_of_containsSub_false m0 m1 B ([m0, m1] ++ C)
  simpa using containsSub_concat_ne m0 m1 m0 B hne hB

theorem containsSub_singleton (c : Char) (s : Str) : containsSub [c] s = true ↔ c ∈ s := by
  rw [containsSub_infix_iff]
  constructor
  · intro h
    exact List.singleton_sublist.1 h.sublist
  · intro h
    obtain ⟨s1, s2, rfl⟩ := List.append_of_mem h
    exact ⟨s1, s2, by simp⟩

theorem findSub_singleton_append (c : Char) (u v : Str) (h : c ∉ u) :
    findSub [c] (u ++ c :: v) = some u.length := by
  apply findSub_append_at [c] u (c :: v) (by simp [List.isPrefixOf])
  intro k hk
  cases hp : ([c] : Str).isPrefixOf ((u ++ c :: v).drop k) with
  | false => rfl
  | true =>
    exfalso
    obtain ⟨t, ht⟩ := List.isPrefixOf_iff_prefix.mp hp
    have hget : (u ++ c :: v)[k]? = some c := by
      rw [← List.head?_drop, ← ht]
      rfl
    have : u[k]? = some c := by
      rw [List.getElem?_append, if_pos hk] at hget
      exact hget
    exact h (List.getElem?_mem this)

theorem containsSub_pair_false (c1 c2 : Char) :
    ∀ s : Str, c1 ∉ s.dropLast → containsSub [c1, c2] s = false := by
  intro s
  induction s with
  | nil => intro _; rfl
  | cons x rest ih =>
    intro h
    rw [show containsSub [c1, c2] (x :: rest)
        = ((([c1, c2] : Str).isPrefixOf (x :: rest)) || containsSub [c1, c2] rest) from rfl]
    have h1 : (([c1, c2] : Str)).isPrefixOf (x :: rest) = false := by
      cases rest with
      | nil => simp [List.isPrefixOf]
      | cons y rest' =>
        have hx : ¬(c1 = x) := by
          intro hxx
          exact h (by simp [List.dropLast, ← hxx])
        simp [List.isPrefixOf, hx]
    rw [h1, Bool.false_or]
    apply ih
    intro hc
    apply h
    cases rest with
    | nil => simp at hc
    | cons y r' =>
      simp only [List.dropLast] at hc ⊢
      exact List.mem_cons_of_mem x hc

theorem pyRstrip_append_cons (u : Str) (c : Char) (w : Str) (hc : isPySpace c = false) :
    pyRstrip (u ++ c :: w) = u ++ c :: pyRstrip w := by
  unfold pyRstrip
  rw [show (u ++ c :: w).reverse = (w.reverse ++ [c]) ++ u.reverse from by simp]
  rw [List.dropWhile_append, List.dropWhile_append]
  by_cases he : (w.reverse.dropWhile isPySpace).isEmpty = true
  · rw [if_pos he]
    rw [show (([c] : Str).dropWhile isPySpace) = [c] from by simp [List.dropWhile, hc]]
    rw [if_neg (by simp)]
    have hw : w.reverse.dropWhile isPySpace = [] := List.isEmpty_iff.mp he
    simp [hw]
  · rw [if_neg he]
    rw [if_neg (by simp)]
    simp

theorem pyRstrip_all_space (s : Str) (h : ∀ c ∈ s, isPySpace c = true) : pyRstrip s = [] := by
  unfold pyRstrip
  have : s.reverse.dropWhile isPySpace = [] := by
    rw [List.dropWhile_eq_nil_iff]
    intro x hx
    exact h x (List.mem_reverse.1 hx)
  rw [this]
  rfl

theorem stripAfterMarker_cut (M u v : Str)
    (hfind : findSub M (u ++ M ++ v) = some u.length) :
    stripAfterMarker M (u ++ M ++ v) = pyRstrip u := by
  unfold stripAfterMarker
  rw [hfind]
  show pyRstrip ((u ++ M ++ v).take u.length) = pyRstrip u
  rw [List.append_assoc, List.take_left]

theorem stripBlockFuel_no_term (fuel : Nat) :
    ∀ s : Str, containsSub ['*', '/'] s = false → stripBlockFuel fuel s = s := by
  induction fuel with
  | zero => intro s _; rfl
  | succ fuel ih =>
    intro s h
    cases s with
    | nil => rfl
    | cons c rest =>
      by_cases hp : (['/', '*'] : Str).isPrefixOf (c :: rest)
      · have hdrop : containsSub ['*', '/'] (rest.drop 1) = false :=
          containsSub_false_drop 1 (containsSub_false_tail h)
        simp only [stripBlockFuel, if_pos hp, findSub_eq_none_of_not_contains hdrop]
      · simp only [stripBlockFuel, if_neg hp, ih rest (containsSub_false_tail h)]

theorem stripBlockComments_no_term {s : Str} (h : containsSub ['*', '/'] s = false) :
    stripBlockComments s = s :=
  stripBlockFuel_no_term s.length s h

theorem stripBlockFuel_cons (f : Nat) (c : Char) (rest : Str) :
    stripBlockFuel (f + 1) (c :: rest) =
      if (['/', '*'] : Str).isPrefixOf (c :: rest) then
        match findSub ['*', '/'] (rest.drop 1) with
        | some j => stripBlockFuel f ((rest.drop 1).drop (j + 2))
        | none => c :: rest
      else c :: stripBlockFuel f rest := rfl

theorem stripBlockFuel_fuel_inv :
    ∀ (f1 : Nat) (s : Str) (f2 : Nat), s.length ≤ f1 → s.length ≤ f2 →
      stripBlockFuel f1 s = stripBlockFuel f2 s := by
  intro f1
  induction f1 with
  | zero =>
    intro s f2 h1 _
    have : s = [] := List.eq_nil_of_length_eq_zero (Nat.le_zero.mp h1)
    subst this
    cases f2 <;> rfl
  | succ f1 ih =>
    intro s f2 h1 h2
    cases s with
    | nil => cases f2 <;> rfl
    | cons c rest =>
      cases f2 with
      | zero => exact absurd h2 (by simp)
      | succ f2 =>
        rw [stripBlockFuel_cons, stripBlockFuel_cons]
        by_cases hp : (['/', '*'] : Str).isPrefixOf (c :: rest) = true
        · rw [if_pos hp, if_pos hp]
          cases hf : findSub ['*', '/'] (rest.drop 1) with
          | none => rfl
          | some j =>
            apply ih
            · simp only [List.length_drop]
              simp only [List.length_cons] at h1
              omega
            · simp only [List.length_drop]
              simp only [List.length_cons] at h2
              omega
        · rw [if_neg hp, if_neg hp]
          congr 1
          apply ih rest f2
          · simp only [List.length_cons] at h1
            omega
          · simp only [List.length_cons] at h2
            omega

theorem stripBlockFuel_removes :
    ∀ (A : Str) (fuel : Nat) (B C : Str),
      containsSub ['/', '*'] A = false →
      containsSub ['*', '/'] B = false →
      A.length + B.length + C.length + 4 ≤ fuel →
      stripBlockFuel fuel (A ++ ['/', '*'] ++ B ++ ['*', '/'] ++ C)
        = A ++ stripBlockComments C := by
  intro A
  induction A with
  | nil =>
    intro fuel B C _ hB hle
    obtain ⟨f, rfl⟩ : ∃ f, fuel = f + 1 := ⟨fuel - 1, by omega⟩
    rw [show (([] : Str) ++ ['/', '*'] ++ B ++ ['*', '/'] ++ C)
        = '/' :: '*' :: (B ++ ['*', '/'] ++ C) from by simp]
    rw [stripBlockFuel_cons]
    rw [if_pos (by simp [List.isPrefixOf])]
    rw [show (('*' :: (B ++ ['*', '/'] ++ C) : Str).drop 1) = B ++ ['*', '/'] ++ C from rfl]
    rw [findSub_marker_mid '*' '/' (by decide) B C hB]
    show stripBlockFuel f ((B ++ ['*', '/'] ++ C).drop (B.length + 2)) = stripBlockComments C
    rw [show ((B ++ ['*', '/'] ++ C).drop (B.length + 2)) = C from
      List.drop_left' (by simp)]
    unfold stripBlockComments
    apply stripBlockFuel_fuel_inv
    · simp at hle ⊢
      omega
    · exact le_refl _
  | cons a A ih =>
    intro fuel B C hA hB hle
    obtain ⟨f, rfl⟩ : ∃ f, fuel = f + 1 := ⟨fuel - 1, by omega⟩
    rw [show ((a :: A) ++ ['/', '*'] ++ B ++ ['*', '/'] ++ C)
        = a :: (A ++ ['/', '*'] ++ B ++ ['*', '/'] ++ C) from by simp]
    rw [stripBlockFuel_cons]
    by_cases hp : (['/', '*'] : Str).isPrefixOf (a :: (A ++ ['/', '*'] ++ B ++ ['*', '/'] ++ C))
        = true
    · exfalso
      obtain ⟨t, ht⟩ := List.isPrefixOf_iff_prefix.mp hp
      cases A with
      | nil =>
        have ht' : '/' :: '*' :: t = a :: '/' :: '*' :: (B ++ ['*', '/'] ++ C) := by
          simpa using ht
        have h2 : '*' = '/' := by
          have := congrArg (fun l => l.getD 1 ' ') ht'
          simpa using this
        exact absurd h2 (by decide)
      | cons a2 A' =>
        have ht' : '/' :: '*' :: t = a :: a2 :: (A' ++ ['/', '*'] ++ B ++ ['*', '/'] ++ C) := by
          simpa using ht
        have ha : a = '/' := by
          have := congrArg (fun l => l.getD 0 ' ') ht'
          simpa using this.symm
        have ha2 : a2 = '*' := by
          have := congrArg (fun l => l.getD 1 ' ') ht'
          simpa using this.symm
        have : containsSub ['/', '*'] (a :: a2 :: A') = true := by
          rw [show containsSub ['/', '*'] (a :: a2 :: A')
              = ((['/', '*'] : Str).isPrefixOf (a :: a2 :: A')
                  || containsSub ['/', '*'] (a2 :: A')) from rfl]
          rw [ha, ha2]
          simp [List.isPrefixOf]
        rw [hA] at this
        exact Bool.noConfusion this
    · rw [if_neg hp]
      rw [ih f B C (containsSub_false_tail hA) hB (by simp at hle ⊢; omega)]
      simp

theorem stripBlockComments_removes (A B C : Str)
    (hA : containsSub ['/', '*'] A = false) (hB : containsSub ['*', '/'] B = false) :
    stripBlockComments (A ++ ['/', '*'] ++ B ++ ['*', '/'] ++ C)
      = A ++ stripBlockComments C := by
  unfold stripBlockComments
  apply stripBlockFuel_removes A _ B C hA hB
  simp only [List.length_append, List.length_cons]
  omega

theorem stripLineComment_cut_slash (u v : Str)
    (h1 : containsSub ['/', '/'] (u ++ ['/']) = false) (h2 : '#' ∉ u) :
    stripLineComment (u ++ ['/', '/'] ++ v) = pyRstrip u := by
  unfold stripLineComment
  have hfind : findSub ['/', '/'] (u ++ ['/', '/'] ++ v) = some u.length := by
    rw [List.append_assoc]
    apply findSub_append_at ['/', '/'] u (['/', '/'] ++ v) (by simp [List.isPrefixOf])
    intro k hk
    have := no_window_of_containsSub_false '/' '/' u (['/', '/'] ++ v)
      (by simpa using h1) k hk
    simpa [List.append_assoc] using this
  rw [stripAfterMarker_cut ['/', '/'] u v hfind]
  apply stripAfterMarker_no_marker
  cases hcon : containsSub ['#'] (pyRstrip u) with
  | false => rfl
  | true =>
    exfalso
    exact h2 ((prefix_of_pyRstrip u).subset ((containsSub_singleton '#' (pyRstrip u)).1 hcon))

theorem stripLineComment_cut_hash (u v : Str)
    (h1 : containsSub ['/', '/'] u = false) (h2 : '#' ∉ u) :
    stripLineComment (u ++ '#' :: v) = pyRstrip u := by
  unfold stripLineComment
  cases hf : findSub ['/', '/'] (u ++ '#' :: v) with
  | none =>
    have hinner : stripAfterMarker ['/', '/'] (u ++ '#' :: v) = u ++ '#' :: v := by
      unfold stripAfterMarker
      rw [hf]
    rw [hinner]
    unfold stripAfterMarker
    rw [findSub_singleton_append '#' u v h2]
    show pyRstrip ((u ++ '#' :: v).take u.length) = pyRstrip u
    rw [List.take_left]
  | some m =>
    have hpre := findSub_spec ['/', '/'] (u ++ '#' :: v) m hf
    have hm : u.length + 1 ≤ m := by
      rcases Nat.lt_or_ge m u.length with hlt | hge
      · exfalso
        have h1' : containsSub ['/', '/'] (u ++ ['#']) = false :=
          containsSub_concat_ne '/' '/' '#' u (by decide) h1
        have := no_window_of_containsSub_false '/' '/' u ('#' :: v) (by simpa using h1') m hlt
        rw [hpre] at this
        exact Bool.noConfusion this
      · rcases Nat.eq_or_lt_of_le hge with heq | hlt
        · exfalso
          rw [show ((u ++ '#' :: v).drop m) = '#' :: v from by
            rw [← heq]; exact List.drop_left u ('#' :: v)] at hpre
          simp [List.isPrefixOf] at hpre
        · omega
    have htake : (u ++ '#' :: v).take m = u ++ '#' :: v.take (m - u.length - 1) := by
      rw [List.take_append_eq_append_take]
      rw [List.take_of_length_le (by omega)]
      congr 1
      rw [show m - u.length = (m - u.length - 1) + 1 from by omega, List.take_succ_cons]
      simp
    have hinner : stripAfterMarker ['/', '/'] (u ++ '#' :: v)
        = u ++ '#' :: pyRstrip (v.take (m - u.length - 1)) := by
      unfold stripAfterMarker
      rw [hf]
      show pyRstrip ((u ++ '#' :: v).take m) = _
      rw [htake, pyRstrip_append_cons u '#' _ (by decide)]
    rw [hinner]
    unfold stripAfterMarker
    rw [findSub_singleton_append '#' u _ h2]
    show pyRstrip ((u ++ '#' :: pyRstrip (v.take (m - u.length - 1))).take u.length) = pyRstrip u
    rw [List.take_left]

theorem strip_comments_line_at (text : Str) (i : Nat)
    (hi : i < (pySplitlines (stripBlockComments text)).length) :
    (pySplitlines (strip_comments text)).getD i []
      = stripLineComment ((pySplitlines (stripBlockComments text)).getD i []) := by
  have hnn : ∀ l ∈ (pySplitlines (stripBlockComments text)).map stripLineComment,
      '\n' ∉ l := by
    intro l hl
    obtain ⟨l0, hl0, rfl⟩ := List.mem_map.1 hl
    intro hmem
    exact mem_pySplitlines_no_nl (stripBlockComments text) l0 hl0
      ((prefix_of_stripLineComment l0).subset hmem)
  have hpos : 0 < (pySplitlines (stripBlockComments text)).length :=
    Nat.lt_of_le_of_lt (Nat.zero_le i) hi
  have hne : (pySplitlines (stripBlockComments text)).map stripLineComment ≠ [] := by
    rw [← List.length_pos, List.length_map]
    exact hpos
  have hmap : ((pySplitlines (stripBlockComments text)).map stripLineComment).getD i []
      = stripLineComment ((pySplitlines (stripBlockComments text)).getD i []) := by
    rw [List.getD_eq_getElem?_getD, List.getElem?_map, List.getD_eq_getElem?_getD,
      List.getElem?_eq_getElem hi]
    simp
  unfold strip_comments
  rw [pySplitlines_joinNl _ hnn hne]
  split
  · next hlast =>
    by_cases hi2 : i < ((pySplitlines (stripBlockComments text)).map stripLineComment).length - 1
    · rw [List.getD_eq_getElem?_getD, List.getElem?_dropLast, if_pos hi2,
        ← List.getD_eq_getElem?_getD]
      exact hmap
    · have hieq : ((pySplitlines (stripBlockComments text)).map stripLineComment).length - 1
          = i := by
        rw [List.length_map] at hi2 ⊢
        omega
      have hnil : ((pySplitlines (stripBlockComments text)).map stripLineComment)[i]?
          = some [] := by
        rw [List.getLast?_eq_getElem?, hieq] at hlast
        exact hlast
      rw [List.getD_eq_getElem?_getD, List.getElem?_dropLast, if_neg hi2, ← hmap,
        List.getD_eq_getElem?_getD, hnil]
      rfl
  · exact hmap

/-- C4, counterexample: the claim says an unterminated block comment is
consumed through to the end of the input, so `strip_comments "a /*x"`
would have to be `"a "`; instead the comment stripper leaves the
unterminated block comment in place and the opener survives in the
output. -/
theorem C4_counterexample :
    strip_comments "a /*x".data = "a /*x".data ∧
    containsSub "/*".data (strip_comments "a /*x".data) = true :=
  ⟨by decide, by decide⟩

/-- C4 (amended): the comment stripper removes terminated block comments
and then strips a trailing `//` or `#` comment from every line of the
result; an unterminated block comment is left in place.  Conjuncts:
(1) a terminated block comment whose opener is the first one and whose
body holds no terminator is deleted outright, the text before it and the
text after its terminator being concatenated (so lines spanned by the
comment are joined) and the remaining text processed identically;
(2) every output line of `strip_comments` is exactly the line-comment
stripping of the corresponding line of the block-stripped text;
(3) a line `u ++ "//" ++ v` whose prefix `u` ends no earlier `//` match
and holds no `#` is cut to `u` with its trailing whitespace removed;
(4) likewise for a line `u ++ "#" ++ v`;
(5) a comment-only line (whitespace before `//` or `#`) becomes a blank
line; (6) every output line is a prefix of its input line; (7) a line
with neither marker is unchanged (the pass never fails: it is total);
(8) on a text with no `*/` at all the block pass is the identity, so an
unterminated block comment is left in place, not consumed. -/
theorem C4_strip_comments_behavior :
    (∀ A B C : Str, containsSub ['/', '*'] A = false → containsSub ['*', '/'] B = false →
      stripBlockComments (A ++ ['/', '*'] ++ B ++ ['*', '/'] ++ C)
        = A ++ stripBlockComments C) ∧
    (∀ (text : Str) (i : Nat), i < (pySplitlines (stripBlockComments text)).length →
      (pySplitlines (strip_comments text)).getD i []
        = stripLineComment ((pySplitlines (stripBlockComments text)).getD i [])) ∧
    (∀ u v : Str, containsSub ['/', '/'] (u ++ ['/']) = false → '#' ∉ u →
      stripLineComment (u ++ ['/', '/'] ++ v) = pyRstrip u) ∧
    (∀ u v : Str, containsSub ['/', '/'] u = false → '#' ∉ u →
      stripLineComment (u ++ '#' :: v) = pyRstrip u) ∧
    (∀ ws v : Str, (∀ c ∈ ws, isPySpace c = true) →
      stripLineComment (ws ++ ['/', '/'] ++ v) = [] ∧
      stripLineComment (ws ++ '#' :: v) = []) ∧
    (∀ l : Str, stripLineComment l <+: l) ∧
    (∀ l : Str, containsSub ['/', '/'] l = false → containsSub ['#'] l = false →
      stripLineComment l = l) ∧
    (∀ text : Str, containsSub ['*', '/'] text = false → stripBlockComments text = text) := by
  refine ⟨stripBlockComments_removes, strip_comments_line_at,
    stripLineComment_cut_slash, stripLineComment_cut_hash, ?_,
    prefix_of_stripLineComment, ?_, fun _ h => stripBlockComments_no_term h⟩
  · intro ws v hws
    have hnhash : '#' ∉ ws := by
      intro hmem
      have := hws '#' hmem
      exact absurd this (by decide)
    have hnsl : ∀ (d : Char), containsSub ['/', '/'] (ws ++ [d]) = false := by
      intro d
      apply containsSub_pair_false
      rw [List.dropLast_concat]
      intro hmem
      have := hws '/' hmem
      exact absurd this (by decide)
    have hnsl2 : containsSub ['/', '/'] ws = false := by
      apply containsSub_pair_false
      intro hmem
      have := hws '/' ((List.dropLast_sublist ws).subset hmem)
      exact absurd this (by decide)
    constructor
    · rw [stripLineComment_cut_slash ws v (hnsl '/') hnhash]
      exact pyRstrip_all_space ws hws
    · rw [stripLineComment_cut_hash ws v hnsl2 hnhash]
      exact pyRstrip_all_space ws hws
  · intro l h1 h2
    unfold stripLineComment
    rw [stripAfterMarker_no_marker h1, stripAfterMarker_no_marker h2]

/-- C4 witness: the amended theorem at concrete inputs — a terminated
block comment spanning a line break is removed and the cut lines join; a
`//` and a `#` comment are cut with the whitespace before them; a
comment-only line becomes blank; an unterminated block comment survives. -/
theorem C4_witness :
    (containsSub ['/', '*'] "a\nb".data = false ∧
     containsSub ['*', '/'] " x\ny ".data = false ∧
     stripBlockComments ("a\nb".data ++ ['/', '*'] ++ " x\ny ".data ++ ['*', '/'] ++ "c\nd".data)
       = "a\nb".data ++ stripBlockComments "c\nd".data ∧
     strip_comments "a\nb/* x\ny */c\nd".data = "a\nbc\nd".data) ∧
    (stripLineComment ("e".data ++ ['/', '/'] ++ " t".data) = pyRstrip "e".data ∧
     stripLineComment ("e ".data ++ '#' :: " t".data) = pyRstrip "e ".data ∧
     pyRstrip "e ".data = "e".data) ∧
    (stripLineComment ("  ".data ++ ['/', '/'] ++ " c".data) = [] ∧
     stripLineComment ("  ".data ++ '#' :: " c".data) = []) ∧
    ((pySplitlines (strip_comments "e // t\n # z".data)).getD 1 []
       = stripLineComment ((pySplitlines (stripBlockComments "e // t\n # z".data)).getD 1 []) ∧
     (pySplitlines (strip_comments "e // t\n # z".data)).getD 1 [] = []) ∧
    (containsSub ['*', '/'] "abc /* x".data = false ∧
     stripBlockComments "abc /* x".data = "abc /* x".data) :=
  ⟨⟨by decide, by decide,
    C4_strip_comments_behavior.1 "a\nb".data " x\ny ".data "c\nd".data (by decide) (by decide),
    by decide⟩,
   ⟨C4_strip_comments_behavior.2.2.1 "e".data " t".data (by decide) (by decide),
    C4_strip_comments_behavior.2.2.2.1 "e ".data " t".data (by decide) (by decide),
    by decide⟩,
   ⟨(C4_strip_comments_behavior.2.2.2.2.1 "  ".data " c".data (by decide)).1,
    (C4_strip_comments_behavior.2.2.2.2.1 "  ".data " c".data (by decide)).2⟩,
   ⟨C4_strip_comments_behavior.2.1 "e // t\n # z".data 1 (by decide), by decide⟩,
   ⟨by decide, C4_strip_comments_behavior.2.2.2.2.2.2.2 "abc /* x".data (by decide)⟩⟩

/-! ### Lemmas: identity of the normalization passes on pattern-free text -/

theorem parseLit_prefix : ∀ (p cs r : Str), parseLit p cs = some r → p <+: cs := by
  intro p
  induction p with
  | nil => intro cs r _; exact List.nil_prefix
  | cons a ps ih =>
    intro cs r h
    cases cs with
    | nil => exact absurd h (by simp [parseLit])
    | cons c cs' =>
      simp only [parseLit] at h
      by_cases hc : c = a
      · rw [if_pos hc] at h
        exact List.cons_prefix_cons.2 ⟨hc.symm, ih cs' r h⟩
      · rw [if_neg hc] at h
        exact absurd h (by simp)

theorem containsSub_false_of_sub {q n h : Str} (hsub : q <:+: n)
    (hfalse : containsSub q h = false) : containsSub n h = false := by
  cases hc : containsSub n h with
  | false => rfl
  | true =>
    have h1 := (containsSub_infix_iff n h).1 hc
    have h2 := (containsSub_infix_iff q h).2 (hsub.trans h1)
    rw [h2] at hfalse
    exact absurd hfalse (by simp)

theorem tryXt_none_of_no_xt {cs : Str} (h : containsSub "xt".data cs = false) :
    tryXt cs = none := by
  cases hp : parseLit "xt".data cs with
  | none => simp [tryXt, hp]
  | some r1 =>
    have hpre := parseLit_prefix "xt".data cs r1 hp
    have := (containsSub_infix_iff "xt".data cs).2 hpre.isInfix
    rw [this] at h
    exact absurd h (by simp)

theorem xtScanAux_no_xt (fuel : Nat) :
    ∀ (prev : Option Char) (cs : Str),
      containsSub "xt".data cs = false → xtScanAux fuel prev cs = cs := by
  induction fuel with
  | zero => intros; rfl
  | succ fuel ih =>
    intro prev cs h
    cases cs with
    | nil => rfl
    | cons c rest =>
      have htry := tryXt_none_of_no_xt h
      have hrest := containsSub_false_tail h
      simp only [xtScanAux, htry, ih (some c) rest hrest, ite_self]

theorem xtNatPass_no_xt {text : Str} (h : containsSub "xt".data text = false) :
    xtNatPass text = text :=
  xtScanAux_no_xt (text.length + 1) none text h

theorem fixLine_id_of_no_needle (m : List ((Str × Str) × List Str)) {line : Str}
    (h : containsSub dnatNeedle line = false) : fixLine m line = line := by
  unfold fixLine
  rw [h]
  simp

theorem fix_dnat_id {text : Str} (hxt : containsSub "xt".data text = false)
    (hlast : text.getLast? ≠ some '\n') : _fix_xt_dnat_without_to text = text := by
  unfold _fix_xt_dnat_without_to
  have hall : ∀ l ∈ pySplitlines text, fixLine (companionMapping text) l = l := by
    intro l hl
    apply fixLine_id_of_no_needle
    apply containsSub_false_of_sub (show "xt".data <:+: dnatNeedle by decide)
    exact containsSub_eq_false_of_infix (infix_of_mem_pySplitlines text l hl) hxt
  have hmap := @List.map_congr_left _ (pySplitlines text) _
    (fixLine (companionMapping text)) id (fun a ha => hall a ha)
  rw [hmap, List.map_id]
  exact joinNl_pySplitlines text hlast

/-- C2, counterexample: normalization is not idempotent; on the input
consisting of two LF characters one application yields a single LF (the
DNAT-inference pass joins `splitlines` pieces, discarding the final
terminator), and a second application yields the empty text. -/
theorem C2_counterexample :
    input_filter (input_filter "\n\n".data) ≠ input_filter "\n\n".data := by decide

/-- C2 (amended): normalization is not idempotent in general (the trailing
line terminator shrinks on each pass, and a counter rewrite can expose a
chained counter pattern); it is idempotent on every input whose one-pass
output is a fixed point of the counter rewrite, contains no `xt`
substring, and does not end with a line terminator. -/
theorem C2_input_filter_conditional_idempotent (x : Str)
    (h1 : counterPass (input_filter x) = input_filter x)
    (h2 : containsSub "xt".data (input_filter x) = false)
    (h3 : (input_filter x).getLast? ≠ some '\n') :
    input_filter (input_filter x) = input_filter x := by
  have hstep : input_filter (input_filter x) =
      _fix_xt_dnat_without_to (counterPass (xtNatPass (input_filter x))) := rfl
  rw [hstep, xtNatPass_no_xt h2, h1]
  exact fix_dnat_id h2 h3

/-- C2 witness: the amended idempotence applied at a concrete input. -/
theorem C2_witness :
    counterPass (input_filter "accept".data) = input_filter "accept".data ∧
    input_filter (input_filter "accept".data) = input_filter "accept".data :=
  ⟨by decide,
    C2_input_filter_conditional_idempotent "accept".data (by decide) (by decide) (by decide)⟩

/-! ### Lemmas: the MASQUERADE rewrite with an explicit destination -/

theorem xtScanAux_nil (fuel : Nat) (prev : Option Char) : xtScanAux fuel prev [] = [] := by
  cases fuel <;> rfl

theorem tryXt_masq (d : Char) (ds : Str) (hd : ∀ c ∈ d :: ds, nonWsSemi c = true) :
    tryXt ('x' :: 't' :: ' ' :: 't' :: 'a' :: 'r' :: 'g' :: 'e' :: 't' :: ' ' :: '"' ::
      'M' :: 'A' :: 'S' :: 'Q' :: 'U' :: 'E' :: 'R' :: 'A' :: 'D' :: 'E' :: '"' ::
      ' ' :: 't' :: 'o' :: ':' :: d :: ds) = some ("masquerade".data, []) := by
  have hdsp : isPySpace d = false := by
    have h := hd d (List.mem_cons_self d ds)
    simp only [nonWsSemi, Bool.and_eq_true, Bool.not_eq_true'] at h
    exact h.1
  have hdw : (d :: ds).dropWhile isPySpace = d :: ds := by
    rw [List.dropWhile_cons, hdsp]
    simp
  have htw : (d :: ds).takeWhile nonWsSemi = d :: ds := List.takeWhile_eq_self_iff.2 hd
  have h9 : parseToGroup (' ' :: 't' :: 'o' :: ':' :: d :: ds) = some (d :: ds, []) := by
    have e1 : parseToGroup (' ' :: 't' :: 'o' :: ':' :: d :: ds) =
        (if (((d :: ds).dropWhile isPySpace).takeWhile nonWsSemi).isEmpty then none
         else some (((d :: ds).dropWhile isPySpace).takeWhile nonWsSemi,
           ((d :: ds).dropWhile isPySpace).drop
             ((((d :: ds).dropWhile isPySpace).takeWhile nonWsSemi).length))) := rfl
    rw [e1, hdw, htw]
    simp [List.drop_length]
  simp only [tryXt]
  rw [show parseLit ['x', 't'] ('x' :: 't' :: ' ' :: 't' :: 'a' :: 'r' :: 'g' :: 'e' :: 't' :: ' ' :: '"' ::
      'M' :: 'A' :: 'S' :: 'Q' :: 'U' :: 'E' :: 'R' :: 'A' :: 'D' :: 'E' :: '"' ::
      ' ' :: 't' :: 'o' :: ':' :: d :: ds) = some (' ' :: 't' :: 'a' :: 'r' :: 'g' :: 'e' :: 't' :: ' ' :: '"' ::
      'M' :: 'A' :: 'S' :: 'Q' :: 'U' :: 'E' :: 'R' :: 'A' :: 'D' :: 'E' :: '"' ::
      ' ' :: 't' :: 'o' :: ':' :: d :: ds) from rfl]
  simp only [Option.bind_eq_bind, Option.some_bind]
  rw [show ws1 (' ' :: 't' :: 'a' :: 'r' :: 'g' :: 'e' :: 't' :: ' ' :: '"' ::
      'M' :: 'A' :: 'S' :: 'Q' :: 'U' :: 'E' :: 'R' :: 'A' :: 'D' :: 'E' :: '"' ::
      ' ' :: 't' :: 'o' :: ':' :: d :: ds) = some ('t' :: 'a' :: 'r' :: 'g' :: 'e' :: 't' :: ' ' :: '"' ::
      'M' :: 'A' :: 'S' :: 'Q' :: 'U' :: 'E' :: 'R' :: 'A' :: 'D' :: 'E' :: '"' ::
      ' ' :: 't' :: 'o' :: ':' :: d :: ds) from rfl]
  simp only [Option.bind_eq_bind, Option.some_bind]
  rw [show parseLit ['t', 'a', 'r', 'g', 'e', 't'] ('t' :: 'a' :: 'r' :: 'g' :: 'e' :: 't' :: ' ' :: '"' ::
      'M' :: 'A' :: 'S' :: 'Q' :: 'U' :: 'E' :: 'R' :: 'A' :: 'D' :: 'E' :: '"' ::
      ' ' :: 't' :: 'o' :: ':' :: d :: ds) = some (' ' :: '"' ::
      'M' :: 'A' :: 'S' :: 'Q' :: 'U' :: 'E' :: 'R' :: 'A' :: 'D' :: 'E' :: '"' ::
      ' ' :: 't' :: 'o' :: ':' :: d :: ds) from rfl]
  simp only [Option.bind_eq_bind, Option.some_bind]
  rw [show ws1 (' ' :: '"' ::
      'M' :: 'A' :: 'S' :: 'Q' :: 'U' :: 'E' :: 'R' :: 'A' :: 'D' :: 'E' :: '"' ::
      ' ' :: 't' :: 'o' :: ':' :: d :: ds) = some ('"' ::
      'M' :: 'A' :: 'S' :: 'Q' :: 'U' :: 'E' :: 'R' :: 'A' :: 'D' :: 'E' :: '"' ::
      ' ' :: 't' :: 'o' :: ':' :: d :: ds) from rfl]
  simp only [Option.bind_eq_bind, Option.some_bind]
  rw [show parseKind (optQuote ('"' ::
      'M' :: 'A' :: 'S' :: 'Q' :: 'U' :: 'E' :: 'R' :: 'A' :: 'D' :: 'E' :: '"' ::
      ' ' :: 't' :: 'o' :: ':' :: d :: ds)) = some (['M', 'A', 'S', 'Q', 'U', 'E', 'R', 'A', 'D', 'E'],
      '"' :: ' ' :: 't' :: 'o' :: ':' :: d :: ds) from rfl]
  simp only [Option.bind_eq_bind, Option.some_bind]
  rw [show optQuote ('"' :: ' ' :: 't' :: 'o' :: ':' :: d :: ds) =
      ' ' :: 't' :: 'o' :: ':' :: d :: ds from rfl]
  rw [h9]
  simp

theorem xtNatPass_masq (d : Char) (ds : Str) (hd : ∀ c ∈ d :: ds, nonWsSemi c = true) :
    xtNatPass ("xt target \"MASQUERADE\" to:".data ++ (d :: ds)) = "masquerade".data := by
  have h0 : "xt target \"MASQUERADE\" to:".data ++ (d :: ds) =
      'x' :: 't' :: ' ' :: 't' :: 'a' :: 'r' :: 'g' :: 'e' :: 't' :: ' ' :: '"' ::
      'M' :: 'A' :: 'S' :: 'Q' :: 'U' :: 'E' :: 'R' :: 'A' :: 'D' :: 'E' :: '"' ::
      ' ' :: 't' :: 'o' :: ':' :: d :: ds := rfl
  unfold xtNatPass
  rw [h0]
  simp only [xtScanAux, tryXt_masq d ds hd, xtScanAux_nil, List.append_nil]
  simp

/-- C9: the alias normalizer rewrites `xt target "MASQUERADE"` to
`masquerade` even when an explicit destination marker `to:DEST` follows
it, and the destination text is silently discarded: the whole matched
expression (including the `to:DEST` suffix, for any nonempty destination
of non-whitespace, non-semicolon characters) is replaced by the bare word
`masquerade`. -/
theorem C9_masquerade_discards_destination (dest : Str) (hne : dest ≠ [])
    (hd : ∀ c ∈ dest, nonWsSemi c = true) :
    input_filter ("xt target \"MASQUERADE\" to:".data ++ dest) = "masquerade".data := by
  cases dest with
  | nil => exact absurd rfl hne
  | cons d ds =>
    have h1 := xtNatPass_masq d ds hd
    show _fix_xt_dnat_without_to (counterPass
      (xtNatPass ("xt target \"MASQUERADE\" to:".data ++ (d :: ds)))) = "masquerade".data
    rw [h1]
    decide

/-- C9 witness: the rewrite applied at a concrete destination. -/
theorem C9_witness :
    ("1.2.3.4".data ≠ ([] : Str)) ∧
    input_filter ("xt target \"MASQUERADE\" to:".data ++ "1.2.3.4".data) =
      "masquerade".data :=
  ⟨by decide, C9_masquerade_discards_destination "1.2.3.4".data (by decide) (by decide)⟩

/-! ### Lemmas: association-list dictionaries and the parse invariants -/

theorem dictGet_dictSet_self {κ α : Type} [DecidableEq κ] (d : List (κ × α)) (k : κ) (v : α) :
    dictGet (dictSet d k v) k = some v := by
  induction d with
  | nil => simp [dictGet, dictSet]
  | cons p d ih =>
    obtain ⟨k1, v1⟩ := p
    by_cases hk : k = k1
    · simp [dictSet, if_pos hk, dictGet]
    · simp only [dictSet, if_neg hk, dictGet, if_neg hk]
      exact ih

theorem dictGet_dictSet_ne {κ α : Type} [DecidableEq κ] (d : List (κ × α)) (k k' : κ) (v : α)
    (h : k' ≠ k) : dictGet (dictSet d k v) k' = dictGet d k' := by
  induction d with
  | nil => simp [dictGet, dictSet, if_neg h]
  | cons p d ih =>
    obtain ⟨k1, v1⟩ := p
    by_cases hk : k = k1
    · subst hk
      simp [dictSet, dictGet, if_neg h]
    · simp only [dictSet, if_neg hk, dictGet]
      by_cases hk' : k' = k1
      · simp [if_pos hk']
      · simp [if_neg hk', ih]

theorem dictGet_dictSet_isSome {κ α : Type} [DecidableEq κ] {d : List (κ × α)} {c : κ}
    (k : κ) (v : α) (hc : (dictGet d c).isSome) : (dictGet (dictSet d k v) c).isSome := by
  by_cases h : c = k
  · subst h
    rw [dictGet_dictSet_self]
    rfl
  · rw [dictGet_dictSet_ne d k c v h]
    exact hc

theorem mem_dictKeys_dictSet {κ α : Type} [DecidableEq κ] (d : List (κ × α)) (k : κ) (v : α) :
    ∀ c ∈ dictKeys (dictSet d k v), c = k ∨ c ∈ dictKeys d := by
  induction d with
  | nil => simp [dictKeys, dictSet]
  | cons p d ih =>
    obtain ⟨k1, v1⟩ := p
    intro c hc
    by_cases hk : k = k1
    · subst hk
      simp only [dictSet, if_pos rfl, dictKeys, List.map_cons] at hc
      rcases List.mem_cons.1 hc with h | h
      · exact Or.inl h
      · exact Or.inr (by simp [dictKeys, List.mem_cons]; exact Or.inr (by simpa [dictKeys] using h))
    · simp only [dictSet, if_neg hk, dictKeys, List.map_cons] at hc
      rcases List.mem_cons.1 hc with h | h
      · exact Or.inr (by simp [dictKeys, h])
      · rcases ih c (by simpa [dictKeys] using h) with h2 | h2
        · exact Or.inl h2
        · exact Or.inr (by simp [dictKeys] at h2 ⊢; exact Or.inr h2)

theorem dictKeys_dictSet_nodup {κ α : Type} [DecidableEq κ] {d : List (κ × α)} (k : κ) (v : α)
    (h : (dictKeys d).Nodup) : (dictKeys (dictSet d k v)).Nodup := by
  induction d with
  | nil => simp [dictKeys, dictSet]
  | cons p d ih =>
    obtain ⟨k1, v1⟩ := p
    simp only [dictKeys, List.map_cons, List.nodup_cons] at h
    by_cases hk : k = k1
    · subst hk
      have hstep : dictSet ((k, v1) :: d) k v = (k, v) :: d := by
        simp [dictSet]
      rw [hstep]
      simp only [dictKeys, List.map_cons, List.nodup_cons]
      exact ⟨by simpa [dictKeys] using h.1, by simpa [dictKeys] using h.2⟩
    · simp only [dictSet, if_neg hk, dictKeys, List.map_cons, List.nodup_cons]
      constructor
      · intro hc
        rcases mem_dictKeys_dictSet d k v k1 (by simpa [dictKeys] using hc) with h2 | h2
        · exact hk (h2.symm)
        · exact h.1 (by simpa [dictKeys] using h2)
      · exact ih h.2

theorem mem_dictSet {κ α : Type} [DecidableEq κ] (d : List (κ × α)) (k : κ) (v : α) :
    ∀ p ∈ dictSet d k v, p = (k, v) ∨ p ∈ d := by
  induction d with
  | nil => simp [dictSet]
  | cons q d ih =>
    obtain ⟨k1, v1⟩ := q
    intro p hp
    by_cases hk : k = k1
    · subst hk
      simp only [dictSet, if_pos rfl] at hp
      rcases List.mem_cons.1 hp with h | h
      · exact Or.inl h
      · exact Or.inr (List.mem_cons_of_mem _ h)
    · simp only [dictSet, if_neg hk] at hp
      rcases List.mem_cons.1 hp with h | h
      · exact Or.inr (h ▸ List.mem_cons_self _ _)
      · rcases ih p h with h2 | h2
        · exact Or.inl h2
        · exact Or.inr (List.mem_cons_of_mem _ h2)

theorem dictGet_mem {κ α : Type} [DecidableEq κ] :
    ∀ (d : List (κ × α)) (k : κ) (v : α), dictGet d k = some v → (k, v) ∈ d := by
  intro d
  induction d with
  | nil => intro k v h; exact absurd h (by simp [dictGet])
  | cons p d ih =>
    obtain ⟨k1, v1⟩ := p
    intro k v h
    simp only [dictGet] at h
    by_cases hk : k = k1
    · rw [if_pos hk] at h
      subst hk
      obtain rfl : v1 = v := Option.some_inj.1 h
      exact List.mem_cons_self _ _
    · rw [if_neg hk] at h
      exact List.mem_cons_of_mem _ (ih k v h)

/-- Well-formedness the parser establishes for a table: every name in the
chain order can be looked up, and the chain dict binds each name once. -/
def TableWF (t : Table) : Prop :=
  (∀ c ∈ t.chains_in_order, (dictGet t.chains c).isSome) ∧ (dictKeys t.chains).Nodup

/-- Well-formedness the parser establishes for a ruleset. -/
def RulesetWF (r : Ruleset) : Prop :=
  (∀ k ∈ r.tables_in_order, (dictGet r.tables k).isSome) ∧
  (dictKeys r.tables).Nodup ∧ (∀ p ∈ r.tables, TableWF p.2)

theorem tableChainsLoop_wf :
    ∀ (fuel : Nat) (body : Str) (ord : List Str) (chs : List (Str × Chain))
      (res : List Str × List (Str × Chain)),
      tableChainsLoop fuel body ord chs = some res →
      (∀ c ∈ ord, (dictGet chs c).isSome) → (dictKeys chs).Nodup →
      (∀ c ∈ res.1, (dictGet res.2 c).isSome) ∧ (dictKeys res.2).Nodup := by
  intro fuel
  induction fuel with
  | zero =>
    intro body ord chs res h
    exact absurd h (by simp [tableChainsLoop])
  | succ fuel ih =>
    intro body ord chs res h h1 h2
    rw [tableChainsLoop] at h
    split at h
    · simp only [Option.some_inj] at h
      subst h
      exact ⟨h1, h2⟩
    · next indent cname suffix hsearch =>
      split at h
      · exact absurd h (by simp)
      · next j hf =>
        refine ih _ _ _ _ h ?_ (dictKeys_dictSet_nodup _ _ h2)
        intro c hc
        rcases List.mem_append.1 hc with h3 | h3
        · exact dictGet_dictSet_isSome _ _ (h1 c h3)
        · have hcn : c = cname := by simpa using h3
          subst hcn
          rw [dictGet_dictSet_self]
          rfl

theorem parseLoop_wf :
    ∀ (fuel : Nat) (cs : Str) (ord : List (Str × Str))
      (tbls : List ((Str × Str) × Table)) (r : Ruleset),
      parseLoop fuel cs ord tbls = some r →
      (∀ k ∈ ord, (dictGet tbls k).isSome) → (dictKeys tbls).Nodup →
      (∀ p ∈ tbls, TableWF p.2) → RulesetWF r := by
  intro fuel
  induction fuel with
  | zero =>
    intro cs ord tbls r h
    exact absurd h (by simp [parseLoop])
  | succ fuel ih =>
    intro cs ord tbls r h h1 h2 h3
    rw [parseLoop] at h
    split at h
    · simp only [Option.some_inj] at h
      subst h
      exact ⟨h1, h2, h3⟩
    · next indent fam tname suffix hsearch =>
      split at h
      · exact absurd h (by simp)
      · next j hf =>
        split at h
        · exact absurd h (by simp)
        · next cord chs hb =>
          have htw : TableWF (Table.mk fam tname indent cord chs) := by
            have := tableChainsLoop_wf _ _ [] [] (cord, chs) hb (by simp)
              (by simp [dictKeys])
            exact ⟨this.1, this.2⟩
          refine ih _ _ _ _ h ?_ (dictKeys_dictSet_nodup _ _ h2) ?_
          · intro k hk
            rcases List.mem_append.1 hk with h4 | h4
            · exact dictGet_dictSet_isSome _ _ (h1 k h4)
            · have hkk : k = (fam, tname) := by simpa using h4
              subst hkk
              rw [dictGet_dictSet_self]
              rfl
          · intro p hp
            rcases mem_dictSet _ _ _ p hp with h4 | h4
            · rw [h4]
              exact htw
            · exact h3 p h4

theorem parse_wf (text : Str) (r : Ruleset) (h : Ruleset.parse text = some r) :
    RulesetWF r := by
  unfold Ruleset.parse at h
  exact parseLoop_wf _ _ [] [] r h (by simp) (by simp [dictKeys]) (by simp)

/-- C3, counterexample: when the input declares the same table identifier
twice, the parser appends the identifier to the ordered table sequence
both times, so the sequence is not duplicate-free. -/
theorem C3_counterexample :
    (Ruleset.parse "table ip f \x7b\n\x7d\ntable ip f \x7b\n\x7d".data).map
      (fun r => r.tables_in_order) =
      some [("ip".data, "f".data), ("ip".data, "f".data)] ∧
    ¬ ([("ip".data, "f".data), ("ip".data, "f".data)] : List (Str × Str)).Nodup :=
  ⟨by decide, by decide⟩

/-- C3 (amended): the key-to-value mappings of a parsed Ruleset are
duplicate-free — the table dict binds each (family, name) identifier at
most once, each table's chain dict binds each chain name at most once, and
every identifier in the ordered table sequence can be looked up — but the
ordered sequences themselves repeat an identifier when the input declares
the same table or chain block more than once. -/
theorem C3_mapping_keys_unique (x : Str) (r : Ruleset) (h : Ruleset.parse x = some r) :
    (dictKeys r.tables).Nodup ∧
    (∀ p ∈ r.tables, (dictKeys p.2.chains).Nodup) ∧
    (∀ k ∈ r.tables_in_order, (dictGet r.tables k).isSome) := by
  obtain ⟨h1, h2, h3⟩ := parse_wf x r h
  exact ⟨h2, fun p hp => (h3 p hp).2, h1⟩

/-- C3 witness: the amended uniqueness applied at the duplicate-table
input. -/
theorem C3_witness :
    Ruleset.parse "table ip f \x7b\n\x7d\ntable ip f \x7b\n\x7d".data =
      some (Ruleset.mk [("ip".data, "f".data), ("ip".data, "f".data)]
        [(("ip".data, "f".data), Table.mk "ip".data "f".data [] [] [])]) ∧
    (dictKeys (Ruleset.mk [("ip".data, "f".data), ("ip".data, "f".data)]
        [(("ip".data, "f".data), Table.mk "ip".data "f".data [] [] [])]).tables).Nodup :=
  ⟨by decide,
    (C3_mapping_keys_unique "table ip f \x7b\n\x7d\ntable ip f \x7b\n\x7d".data _ (by decide)).1⟩

/-! ### Lemmas: the self-diff -/

theorem diff_rules_originals_self (ch : Chain) : ch.diff_rules_originals (some ch) = [] := by
  unfold Chain.diff_rules_originals
  apply List.filter_eq_nil_iff.2
  intro ln hln
  simp only [decide_eq_true_eq, Decidable.not_not]
  exact List.mem_map_of_mem (fun l => normalize_rule (pyLstrip l)) hln

theorem loopNewChains_self (t : Table) :
    ∀ order, (∀ c ∈ order, (dictGet t.chains c).isSome) →
      loopNewChains t t order = some [] := by
  intro order
  induction order with
  | nil => intro _; rfl
  | cons c rest ih =>
    intro h
    have hc := h c (List.mem_cons_self c rest)
    simp only [loopNewChains, hc, if_true,
      ih (fun c' h' => h c' (List.mem_cons_of_mem c h'))]

theorem loopCommonChains_self (t : Table) :
    ∀ order, loopCommonChains t t order = some [] := by
  intro order
  induction order with
  | nil => rfl
  | cons c rest ih =>
    cases hg : dictGet t.chains c with
    | none => simp only [loopCommonChains, hg, ih]
    | some bch =>
      simp only [loopCommonChains, hg, Option.bind_eq_bind, Option.some_bind,
        diff_rules_originals_self, List.isEmpty_nil, if_true, ih]

theorem compute_chains_self (t : Table)
    (hwf : ∀ c ∈ t.chains_in_order, (dictGet t.chains c).isSome) :
    _compute_chains_to_render t (some t) = some [] := by
  have hstep : _compute_chains_to_render t (some t) = (do
      let l1 ← loopNewChains t t t.chains_in_order
      let l2 ← loopCommonChains t t t.chains_in_order
      some (l1 ++ l2)) := rfl
  rw [hstep, loopNewChains_self t _ hwf, loopCommonChains_self]
  rfl

theorem renderTablesAux_self (r : Ruleset) (hwf : RulesetWF r) :
    ∀ ks, (∀ k ∈ ks, (dictGet r.tables k).isSome) →
      renderTablesAux r r ks = some [] := by
  intro ks
  induction ks with
  | nil => intro _; rfl
  | cons k ks ih =>
    intro h
    obtain ⟨t, ht⟩ := Option.isSome_iff_exists.1 (h k (List.mem_cons_self k ks))
    have htw : TableWF t := hwf.2.2 (k, t) (dictGet_mem r.tables k t ht)
    simp only [renderTablesAux, ht, Option.bind_eq_bind, Option.some_bind,
      compute_chains_self t htw.1, List.isEmpty_nil, if_true,
      ih (fun k' h' => h k' (List.mem_cons_of_mem k h'))]
    rfl

/-- C1: for every text that parses successfully, rendering the delta of
the parsed Ruleset against itself produces empty output: no table, chain,
or rule line is emitted when current and baseline are parsed from the same
text. -/
theorem C1_self_diff_empty (x : Str) (r : Ruleset) (h : Ruleset.parse x = some r) :
    Ruleset.render_declarative_delta r r = some [] := by
  have hwf := parse_wf x r h
  unfold Ruleset.render_declarative_delta
  rw [renderTablesAux_self r hwf r.tables_in_order hwf.1]
  rfl

/-- C1 witness: the self-diff applied at a concrete parsed input. -/
theorem C1_witness :
    Ruleset.parse "table ip f \x7b\nchain c \x7b\naccept\n\x7d\n\x7d".data =
      some (Ruleset.mk [("ip".data, "f".data)]
        [(("ip".data, "f".data),
          Table.mk "ip".data "f".data [] ["c".data]
            [("c".data, Chain.mk "c".data [] [] ["accept".data] false)])]) ∧
    Ruleset.render_declarative_delta
      (Ruleset.mk [("ip".data, "f".data)]
        [(("ip".data, "f".data),
          Table.mk "ip".data "f".data [] ["c".data]
            [("c".data, Chain.mk "c".data [] [] ["accept".data] false)])])
      (Ruleset.mk [("ip".data, "f".data)]
        [(("ip".data, "f".data),
          Table.mk "ip".data "f".data [] ["c".data]
            [("c".data, Chain.mk "c".data [] [] ["accept".data] false)])]) = some [] :=
  ⟨by decide, C1_self_diff_empty "table ip f \x7b\nchain c \x7b\naccept\n\x7d\n\x7d".data _ (by decide)⟩

/-! ### Full emission against an empty baseline (claim C7) -/

/-- Full emission of one chain, following the spec's words: header lines,
the recorded blank separator when the flag is set (and rules exist), then
all rule lines, wrapped in the chain braces with captured indentation. -/
def fullChainLines (cname : Str) (ch : Chain) : List Str :=
  (ch.indent ++ "chain ".data ++ cname ++ " \x7b".data)
    :: (ch.header_lines ++
        (if ch.blank_between_header_and_rules && !ch.rules.isEmpty
         then [([] : Str)] else []) ++
        ch.rules ++ [ch.indent ++ ['\x7d']])

/-- Full emission of one table: every chain in declaration order, blank
lines between chains; a table whose chain list yields nothing is omitted. -/
def fullTableLines (t : Table) : List Str :=
  let blocks := t.chains_in_order.filterMap
    (fun c => (dictGet t.chains c).map (fun ch => fullChainLines c ch))
  if blocks.isEmpty then []
  else (t.indent ++ "table ".data ++ t.family ++ ' ' :: (t.name ++ " \x7b".data))
    :: interBlank blocks ++ [t.indent ++ ['\x7d']]

/-- Full emission of a whole Ruleset: tables in declaration order, final
line terminator when anything was emitted. -/
def fullRender (r : Ruleset) : Str :=
  let out := (r.tables_in_order.filterMap
    (fun k => (dictGet r.tables k).map fullTableLines)).flatten
  joinNl out ++ (if out.isEmpty then [] else ['\n'])

theorem renderChainLines_none (cname : Str) (ch : Chain) :
    renderChainLines cname ch none = fullChainLines cname ch := by
  simp [renderChainLines, fullChainLines, List.append_assoc]

theorem chainsFullEntries_eq (chains : List (Str × Chain)) :
    ∀ order, (∀ c ∈ order, (dictGet chains c).isSome) →
      chainsFullEntries order chains =
        some (order.filterMap
          (fun c => (dictGet chains c).map
            (fun ch => ((c, ch, none) : RenderEntry)))) := by
  intro order
  induction order with
  | nil => intro _; rfl
  | cons c rest ih =>
    intro h
    obtain ⟨ch, hch⟩ := Option.isSome_iff_exists.1 (h c (List.mem_cons_self c rest))
    simp only [chainsFullEntries, hch, Option.bind_eq_bind, Option.some_bind,
      ih (fun c' h' => h c' (List.mem_cons_of_mem c h')), List.filterMap_cons]
    rfl

theorem renderTableLines_full (t : Table)
    (entries : List RenderEntry)
    (he : entries = t.chains_in_order.filterMap
      (fun c => (dictGet t.chains c).map (fun ch => ((c, ch, none) : RenderEntry)))) :
    (if entries.isEmpty then [] else renderTableLines t entries) = fullTableLines t := by
  have hblocks : entries.map (fun e => renderChainLines e.1 e.2.1 e.2.2) =
      t.chains_in_order.filterMap
        (fun c => (dictGet t.chains c).map (fun ch => fullChainLines c ch)) := by
    rw [he, List.map_filterMap]
    apply List.filterMap_congr
    intro c _
    cases hg : dictGet t.chains c with
    | none => rfl
    | some ch => simp [renderChainLines_none]
  have hempty : entries.isEmpty =
      (t.chains_in_order.filterMap
        (fun c => (dictGet t.chains c).map (fun ch => fullChainLines c ch))).isEmpty := by
    rw [← hblocks]
    cases entries <;> rfl
  simp only [fullTableLines]
  rw [← hempty, ← hblocks]
  cases hi : entries.isEmpty
  · simp only [Bool.false_eq_true, if_false, renderTableLines]
  · simp only [if_true]

theorem renderTablesAux_empty_base (r : Ruleset) (hwf : RulesetWF r) :
    ∀ ks, (∀ k ∈ ks, (dictGet r.tables k).isSome) →
      renderTablesAux r (Ruleset.mk [] []) ks =
        some ((ks.filterMap (fun k => (dictGet r.tables k).map fullTableLines)).flatten) := by
  intro ks
  induction ks with
  | nil => intro _; rfl
  | cons k ks ih =>
    intro h
    obtain ⟨t, ht⟩ := Option.isSome_iff_exists.1 (h k (List.mem_cons_self k ks))
    have htw : TableWF t := hwf.2.2 (k, t) (dictGet_mem r.tables k t ht)
    have hbase : dictGet (Ruleset.mk [] []).tables k = (none : Option Table) := rfl
    have hcomp : _compute_chains_to_render t (dictGet (Ruleset.mk [] []).tables k) =
        chainsFullEntries t.chains_in_order t.chains := by
      rw [hbase]
      rfl
    simp only [renderTablesAux, ht, Option.bind_eq_bind, Option.some_bind, hcomp,
      chainsFullEntries_eq t.chains t.chains_in_order htw.1,
      ih (fun k' h' => h k' (List.mem_cons_of_mem k h')), List.filterMap_cons,
      Option.map_some, List.flatten_cons]
    rw [renderTableLines_full t _ rfl]
    rfl

/-- C7, counterexample: the claim says the delta against the baseline
parsed from the empty string reproduces every table of the input; but a
table with no chains is omitted entirely, so for an input declaring a
chainless table the rendered delta is empty. -/
theorem C7_counterexample :
    Ruleset.parse "".data = some (Ruleset.mk [] []) ∧
    Ruleset.parse "table ip f \x7b\n\x7d".data =
      some (Ruleset.mk [("ip".data, "f".data)]
        [(("ip".data, "f".data), Table.mk "ip".data "f".data [] [] [])]) ∧
    Ruleset.render_declarative_delta
      (Ruleset.mk [("ip".data, "f".data)]
        [(("ip".data, "f".data), Table.mk "ip".data "f".data [] [] [])])
      (Ruleset.mk [] []) = some [] :=
  ⟨by decide, by decide, by decide⟩

/-- C7 (amended): rendering the delta of a parsed Ruleset against the
Ruleset parsed from the empty string reproduces, in declaration order and
with the captured indentation, every table that has at least one chain —
each chain in full, header lines first with the header/rule blank
separator honoured, then all rule lines — while a table with no chains is
omitted; no baseline table matches, since the empty baseline has none. -/
theorem C7_full_emission (x : Str) (r : Ruleset) (h : Ruleset.parse x = some r) :
    Ruleset.parse "".data = some (Ruleset.mk [] []) ∧
    Ruleset.render_declarative_delta r (Ruleset.mk [] []) = some (fullRender r) := by
  have hwf := parse_wf x r h
  refine ⟨by decide, ?_⟩
  unfold Ruleset.render_declarative_delta
  rw [renderTablesAux_empty_base r hwf r.tables_in_order hwf.1]
  rfl

/-- C7 witness: the amended full-emission statement applied at a concrete
input, together with the concrete full text it produces. -/
theorem C7_witness :
    Ruleset.parse "table ip f \x7b\nchain c \x7b\ntype filter hook input priority 0;\n\naccept\n\x7d\n\x7d".data =
      some (Ruleset.mk [("ip".data, "f".data)]
        [(("ip".data, "f".data),
          Table.mk "ip".data "f".data [] ["c".data]
            [("c".data,
              Chain.mk "c".data [] ["type filter hook input priority 0;".data]
                ["accept".data] true)])]) ∧
    Ruleset.render_declarative_delta
      (Ruleset.mk [("ip".data, "f".data)]
        [(("ip".data, "f".data),
          Table.mk "ip".data "f".data [] ["c".data]
            [("c".data,
              Chain.mk "c".data [] ["type filter hook input priority 0;".data]
                ["accept".data] true)])])
      (Ruleset.mk [] []) =
      some (fullRender (Ruleset.mk [("ip".data, "f".data)]
        [(("ip".data, "f".data),
          Table.mk "ip".data "f".data [] ["c".data]
            [("c".data,
              Chain.mk "c".data [] ["type filter hook input priority 0;".data]
                ["accept".data] true)])])) ∧
    fullRender (Ruleset.mk [("ip".data, "f".data)]
        [(("ip".data, "f".data),
          Table.mk "ip".data "f".data [] ["c".data]
            [("c".data,
              Chain.mk "c".data [] ["type filter hook input priority 0;".data]
                ["accept".data] true)])]) =
      "table ip f \x7b\nchain c \x7b\ntype filter hook input priority 0;\n\naccept\n\x7d\n\x7d\n".data :=
  ⟨by decide,
    (C7_full_emission
      "table ip f \x7b\nchain c \x7b\ntype filter hook input priority 0;\n\naccept\n\x7d\n\x7d".data
      _ (by decide)).2,
    by decide⟩

/-! ### Lemmas: shape of the rendered output (claim C10) -/

theorem renderTableLines_ne_nil (t : Table) (entries : List RenderEntry) :
    renderTableLines t entries ≠ [] := by
  simp [renderTableLines]

theorem renderTableLines_getLast (t : Table) (entries : List RenderEntry) :
    (renderTableLines t entries).getLast? = some (t.indent ++ ['\x7d']) := by
  unfold renderTableLines
  rw [← List.cons_append, List.getLast?_concat]

theorem joinNl_getLast (c : Char) :
    ∀ (ls : List Str) (l : Str), ls.getLast? = some l → l.getLast? = some c →
      (joinNl ls).getLast? = some c := by
  intro ls
  induction ls with
  | nil => intro l h; exact absurd h (by simp)
  | cons a rest ih =>
    intro l h hc
    cases rest with
    | nil =>
      have haeq : a = l := by simpa using h
      subst haeq
      simpa [joinNl] using hc
    | cons b bs =>
      rw [List.getLast?_cons_cons] at h
      have hj := ih l h hc
      have hne : joinNl (b :: bs) ≠ [] := by
        intro hnil
        rw [hnil] at hj
        simp at hj
      rw [joinNl_cons_cons, List.getLast?_append]
      cases hJ : joinNl (b :: bs) with
      | nil => exact absurd hJ hne
      | cons j js =>
        rw [hJ] at hj
        simp only [List.getLast?_cons_cons, hj]
        rfl

theorem renderTablesAux_spec (cur base : Ruleset) :
    ∀ (ks : List (Str × Str)) (out : List Str),
      renderTablesAux cur base ks = some out →
      ((out = [] ↔ ∀ k ∈ ks, ∀ t, dictGet cur.tables k = some t →
          _compute_chains_to_render t (dictGet base.tables k) = some []) ∧
        (out = [] ∨ ∃ l, out.getLast? = some l ∧ l.getLast? = some '\x7d')) := by
  intro ks
  induction ks with
  | nil =>
    intro out h
    simp only [renderTablesAux, Option.some_inj] at h
    subst h
    exact ⟨by simp, Or.inl rfl⟩
  | cons k ks ih =>
    intro out h
    rw [renderTablesAux] at h
    cases ht : dictGet cur.tables k with
    | none => rw [ht] at h; exact absurd h (by simp)
    | some t =>
      rw [ht] at h
      simp only [Option.bind_eq_bind, Option.some_bind] at h
      cases hc : _compute_chains_to_render t (dictGet base.tables k) with
      | none => rw [hc] at h; exact absurd h (by simp)
      | some entries =>
        rw [hc] at h
        simp only [Option.some_bind] at h
        cases hrest : renderTablesAux cur base ks with
        | none => rw [hrest] at h; exact absurd h (by simp)
        | some rest =>
          rw [hrest] at h
          simp only [Option.some_bind, Option.some_inj] at h
          obtain ⟨hiff, hlast⟩ := ih rest hrest
          constructor
          · constructor
            · intro hout
              rw [← h] at hout
              have hdecomp := List.append_eq_nil.1 hout
              intro k' hk' t' ht'
              rcases List.mem_cons.1 hk' with h1 | h1
              · subst h1
                rw [ht] at ht'
                obtain rfl : t = t' := Option.some_inj.1 ht'
                rw [hc]
                have : entries.isEmpty = true := by
                  by_contra hne
                  rw [if_neg hne] at hdecomp
                  exact renderTableLines_ne_nil t entries hdecomp.1
                rw [List.isEmpty_iff.1 this]
              · exact (hiff.1 hdecomp.2) k' h1 t' ht'
            · intro hall
              have h1 := hall k (List.mem_cons_self k ks) t ht
              rw [hc] at h1
              obtain rfl : entries = [] := Option.some_inj.1 h1
              have h2 : rest = [] :=
                hiff.2 (fun k' hk' => hall k' (List.mem_cons_of_mem k hk'))
              rw [← h, h2]
              rfl
          · by_cases hrest_nil : rest = []
            · subst hrest_nil
              cases he : entries.isEmpty
              · right
                rw [← h, he]
                refine ⟨t.indent ++ ['\x7d'], ?_, by simp⟩
                simp only [Bool.false_eq_true, if_false, List.append_nil]
                exact renderTableLines_getLast t entries
              · left
                rw [← h, he]
                rfl
            · right
              rcases hlast with h1 | h1
              · exact absurd h1 hrest_nil
              · obtain ⟨l, hl1, hl2⟩ := h1
                refine ⟨l, ?_, hl2⟩
                rw [← h, List.getLast?_append, hl1]
                rfl

/-- C10: the delta renderer's output (when the lookups succeed) is the
empty string exactly when no table has any chain selected for emission;
otherwise it is nonempty and ends with exactly one trailing LF (the
character before the final LF is the closing brace of the last table). -/
theorem C10_render_output_shape (cur base : Ruleset) (out : Str)
    (h : Ruleset.render_declarative_delta cur base = some out) :
    (out = [] ↔ ∀ k ∈ cur.tables_in_order, ∀ t, dictGet cur.tables k = some t →
      _compute_chains_to_render t (dictGet base.tables k) = some []) ∧
    (out ≠ [] → out.getLast? = some '\n' ∧ out.dropLast.getLast? ≠ some '\n') := by
  unfold Ruleset.render_declarative_delta at h
  cases hr : renderTablesAux cur base cur.tables_in_order with
  | none => rw [hr] at h; exact absurd h (by simp)
  | some lines =>
    rw [hr] at h
    replace h : joinNl lines ++ (if lines.isEmpty then [] else ['\n']) = out := by
      simpa using h
    obtain ⟨hiff, hlast⟩ := renderTablesAux_spec cur base cur.tables_in_order lines hr
    cases hl : lines with
    | nil =>
      subst hl
      have hout : out = [] := by rw [← h]; rfl
      constructor
      · rw [hout]
        exact ⟨fun _ => hiff.1 rfl, fun _ => rfl⟩
      · intro hne
        exact absurd hout hne
    | cons a rest =>
      have hlne : lines ≠ [] := by rw [hl]; simp
      have hout : out = joinNl lines ++ ['\n'] := by
        rw [← h, if_neg (by simp [hl])]
      constructor
      · constructor
        · intro ho
          rw [ho] at hout
          exact absurd hout.symm (by simp)
        · intro hall
          exact absurd (hiff.2 hall) hlne
      · intro _
        rcases hlast with h1 | h1
        · exact absurd h1 hlne
        · obtain ⟨l, hl1, hl2⟩ := h1
          constructor
          · rw [hout, List.getLast?_concat]
          · rw [hout, List.dropLast_concat, joinNl_getLast '\x7d' lines l hl1 hl2]
            simp

/-- C10 witness: the output shape at a concrete ruleset pair with
nonempty output. -/
theorem C10_witness :
    Ruleset.render_declarative_delta
      (Ruleset.mk [("ip".data, "f".data)]
        [(("ip".data, "f".data),
          Table.mk "ip".data "f".data [] ["c".data]
            [("c".data, Chain.mk "c".data [] [] ["accept".data] false)])])
      (Ruleset.mk [] []) = some "table ip f \x7b\nchain c \x7b\naccept\n\x7d\n\x7d\n".data ∧
    ("table ip f \x7b\nchain c \x7b\naccept\n\x7d\n\x7d\n".data.getLast? = some '\n' ∧
      "table ip f \x7b\nchain c \x7b\naccept\n\x7d\n\x7d\n".data.dropLast.getLast? ≠ some '\n') :=
  ⟨by decide,
    (C10_render_output_shape
      (Ruleset.mk [("ip".data, "f".data)]
        [(("ip".data, "f".data),
          Table.mk "ip".data "f".data [] ["c".data]
            [("c".data, Chain.mk "c".data [] [] ["accept".data] false)])])
      (Ruleset.mk [] []) "table ip f \x7b\nchain c \x7b\naccept\n\x7d\n\x7d\n".data
      (by decide)).2 (by decide)⟩

/-! ### Lemmas: which chains the per-table loops select (claim C6) -/

theorem loopNewChains_payload (cur base : Table) :
    ∀ (order : List Str) (es : List RenderEntry),
      loopNewChains cur base order = some es →
      ∀ (c : Str) (ch : Chain) (l : List Str), ((c, ch, some l) : RenderEntry) ∉ es := by
  intro order
  induction order with
  | nil =>
    intro es h c ch l
    simp only [loopNewChains, Option.some_inj] at h
    subst h
    simp
  | cons c0 rest ih =>
    intro es h c ch l
    rw [loopNewChains] at h
    cases hb : (dictGet base.chains c0).isSome with
    | true =>
      rw [hb] at h
      rw [if_pos rfl] at h
      exact ih es h c ch l
    | false =>
      rw [hb] at h
      simp only [Bool.false_eq_true, if_false, Option.bind_eq_bind] at h
      cases hg : dictGet cur.chains c0 with
      | none => rw [hg] at h; exact absurd h (by simp)
      | some ch0 =>
        rw [hg] at h
        simp only [Option.some_bind] at h
        cases hrest : loopNewChains cur base rest with
        | none => rw [hrest] at h; exact absurd h (by simp)
        | some es0 =>
          rw [hrest] at h
          simp only [Option.some_bind, Option.some_inj] at h
          subst h
          intro hmem
          rcases List.mem_cons.1 hmem with h1 | h1
          · exact Option.noConfusion (congrArg (fun e => e.2.2) h1)
          · exact ih es0 hrest c ch l h1

theorem loopCommonChains_mem (cur base : Table) :
    ∀ (order : List Str) (es : List RenderEntry),
      loopCommonChains cur base order = some es →
      ∀ (c : Str) (ch : Chain) (l : List Str), ((c, ch, some l) : RenderEntry) ∈ es →
        dictGet cur.chains c = some ch ∧
        ∃ bch, dictGet base.chains c = some bch ∧
          l = ch.diff_rules_originals (some bch) ∧ l ≠ [] := by
  intro order
  induction order with
  | nil =>
    intro es h c ch l hmem
    simp only [loopCommonChains, Option.some_inj] at h
    subst h
    exact absurd hmem (by simp)
  | cons c0 rest ih =>
    intro es h c ch l hmem
    rw [loopCommonChains] at h
    cases hb : dictGet base.chains c0 with
    | none =>
      rw [hb] at h
      exact ih es h c ch l hmem
    | some bch0 =>
      rw [hb] at h
      simp only [Option.bind_eq_bind] at h
      cases hg : dictGet cur.chains c0 with
      | none => rw [hg] at h; exact absurd h (by simp)
      | some ch0 =>
        rw [hg] at h
        simp only [Option.some_bind] at h
        cases hrest : loopCommonChains cur base rest with
        | none => rw [hrest] at h; exact absurd h (by simp)
        | some es0 =>
          rw [hrest] at h
          simp only [Option.some_bind] at h
          cases hdiff : (ch0.diff_rules_originals (some bch0)).isEmpty with
          | true =>
            rw [hdiff] at h
            rw [if_pos rfl] at h
            obtain rfl : es0 = es := Option.some_inj.1 h
            exact ih _ hrest c ch l hmem
          | false =>
            rw [hdiff] at h
            simp only [Bool.false_eq_true, if_false, Option.some_inj] at h
            subst h
            rcases List.mem_cons.1 hmem with h1 | h1
            · have hcc : c = c0 := congrArg (fun e => e.1) h1
              have hch : ch = ch0 := congrArg (fun e => e.2.1) h1
              have hl : some l = some (ch0.diff_rules_originals (some bch0)) :=
                congrArg (fun e => e.2.2) h1
              subst hcc
              subst hch
              refine ⟨hg, bch0, hb, Option.some_inj.1 hl, ?_⟩
              rw [Option.some_inj.1 hl]
              intro hnil
              rw [hnil] at hdiff
              exact absurd hdiff (by simp)
            · exact ih es0 hrest c ch l h1

theorem loopCommonChains_mem_of (cur base : Table) :
    ∀ (order : List Str) (es : List RenderEntry),
      loopCommonChains cur base order = some es →
      ∀ c ∈ order, ∀ (ch bch : Chain), dictGet cur.chains c = some ch →
        dictGet base.chains c = some bch →
        ch.diff_rules_originals (some bch) ≠ [] →
        ((c, ch, some (ch.diff_rules_originals (some bch))) : RenderEntry) ∈ es := by
  intro order
  induction order with
  | nil => intro es _ c hc; exact absurd hc (by simp)
  | cons c0 rest ih =>
    intro es h c hc ch bch hcur hbase hdiff
    rw [loopCommonChains] at h
    rcases List.mem_cons.1 hc with h1 | h1
    · subst h1
      rw [hbase] at h
      simp only [Option.bind_eq_bind, hcur, Option.some_bind] at h
      cases hrest : loopCommonChains cur base rest with
      | none => rw [hrest] at h; exact absurd h (by simp)
      | some es0 =>
        rw [hrest] at h
        simp only [Option.some_bind] at h
        have hne : (ch.diff_rules_originals (some bch)).isEmpty = false := by
          cases he : (ch.diff_rules_originals (some bch)).isEmpty with
          | true => exact absurd (List.isEmpty_iff.1 he) hdiff
          | false => rfl
        rw [hne] at h
        simp only [Bool.false_eq_true, if_false, Option.some_inj] at h
        subst h
        exact List.mem_cons_self _ _
    · cases hb : dictGet base.chains c0 with
      | none =>
        rw [hb] at h
        exact ih es h c h1 ch bch hcur hbase hdiff
      | some bch0 =>
        rw [hb] at h
        simp only [Option.bind_eq_bind] at h
        cases hg : dictGet cur.chains c0 with
        | none => rw [hg] at h; exact absurd h (by simp)
        | some ch0 =>
          rw [hg] at h
          simp only [Option.some_bind] at h
          cases hrest : loopCommonChains cur base rest with
          | none => rw [hrest] at h; exact absurd h (by simp)
          | some es0 =>
            rw [hrest] at h
            simp only [Option.some_bind] at h
            have hmem0 := ih es0 hrest c h1 ch bch hcur hbase hdiff
            cases hdiff0 : (ch0.diff_rules_originals (some bch0)).isEmpty with
            | true =>
              rw [hdiff0] at h
              rw [if_pos rfl] at h
              obtain rfl : es0 = es := Option.some_inj.1 h
              exact hmem0
            | false =>
              rw [hdiff0] at h
              simp only [Bool.false_eq_true, if_false, Option.some_inj] at h
              subst h
              exact List.mem_cons_of_mem _ hmem0

/-- C6: for a chain name present in both the current and the base table,
the delta selects exactly the current chain's rule lines whose normalized
form is absent from the base chain's normalized rule set, in the current
chain's original order (as a sublist of its rules); the selected chain
appears among the rendered entries exactly when this list is nonempty (a
chain with no novel lines is omitted); and the emitted partial block is
the chain head line, exactly the novel rule lines, and the closing brace —
no header lines. -/
theorem C6_partial_chain_diff (cur base : Table) (cname : Str) (ch bch : Chain)
    (hcur : dictGet cur.chains cname = some ch)
    (hbase : dictGet base.chains cname = some bch)
    (horder : cname ∈ cur.chains_in_order)
    (entries : List RenderEntry)
    (hc : _compute_chains_to_render cur (some base) = some entries) :
    (ch.diff_rules_originals (some bch)).Sublist ch.rules ∧
    (∀ ln, ln ∈ ch.diff_rules_originals (some bch) ↔
      ln ∈ ch.rules ∧ normalize_rule (pyLstrip ln) ∉ bch.normalized_rules) ∧
    (((cname, ch, some (ch.diff_rules_originals (some bch))) : RenderEntry) ∈ entries ↔
      ch.diff_rules_originals (some bch) ≠ []) ∧
    renderChainLines cname ch (some (ch.diff_rules_originals (some bch))) =
      (ch.indent ++ "chain ".data ++ cname ++ " \x7b".data)
        :: ch.diff_rules_originals (some bch) ++ [ch.indent ++ ['\x7d']] := by
  have hstep : _compute_chains_to_render cur (some base) = (do
      let l1 ← loopNewChains cur base cur.chains_in_order
      let l2 ← loopCommonChains cur base cur.chains_in_order
      some (l1 ++ l2)) := rfl
  rw [hstep] at hc
  cases hl1 : loopNewChains cur base cur.chains_in_order with
  | none => rw [hl1] at hc; exact absurd hc (by simp)
  | some l1 =>
    rw [hl1] at hc
    simp only [Option.bind_eq_bind, Option.some_bind] at hc
    cases hl2 : loopCommonChains cur base cur.chains_in_order with
    | none => rw [hl2] at hc; exact absurd hc (by simp)
    | some l2 =>
      rw [hl2] at hc
      simp only [Option.some_bind, Option.some_inj] at hc
      subst hc
      refine ⟨List.filter_sublist ch.rules, ?_, ⟨?_, ?_⟩, rfl⟩
      · intro ln
        simp [Chain.diff_rules_originals, List.mem_filter]
      · intro hmem
        rcases List.mem_append.1 hmem with h1 | h1
        · exact absurd h1 (loopNewChains_payload cur base _ l1 hl1 _ _ _)
        · obtain ⟨_, bch2, _, _, hne2⟩ := loopCommonChains_mem cur base _ l2 hl2 _ _ _ h1
          exact hne2
      · intro hne
        exact List.mem_append.2 (Or.inr
          (loopCommonChains_mem_of cur base _ l2 hl2 cname horder ch bch hcur hbase hne))

/-- Chain of the C6 witness: current `input` chain with rules A, B, C. -/
def c6ch : Chain := Chain.mk "input".data "  ".data [] ["A".data, "B".data, "C".data] false

/-- Chain of the C6 witness: baseline `input` chain with rules A, B. -/
def c6bch : Chain := Chain.mk "input".data "  ".data [] ["A".data, "B".data] false

/-- Table of the C6 witness: current table. -/
def c6cur : Table :=
  Table.mk "ip".data "filter".data [] ["input".data] [("input".data, c6ch)]

/-- Table of the C6 witness: baseline table. -/
def c6base : Table :=
  Table.mk "ip".data "filter".data [] ["input".data] [("input".data, c6bch)]

/-- C6 witness: the spec's partial-diff scenario — baseline rules A, B;
current rules A, B, C; only C is selected, with no header lines. -/
theorem C6_witness :
    _compute_chains_to_render c6cur (some c6base) =
      some [("input".data, c6ch, some ["C".data])] ∧
    ((("input".data, c6ch, some (c6ch.diff_rules_originals (some c6bch))) : RenderEntry) ∈
        ([("input".data, c6ch, some ["C".data])] : List RenderEntry) ↔
      c6ch.diff_rules_originals (some c6bch) ≠ []) ∧
    renderChainLines "input".data c6ch (some (c6ch.diff_rules_originals (some c6bch))) =
      (c6ch.indent ++ "chain ".data ++ "input".data ++ " \x7b".data)
        :: c6ch.diff_rules_originals (some c6bch) ++ [c6ch.indent ++ ['\x7d']] :=
  ⟨by decide,
    (C6_partial_chain_diff c6cur c6base "input".data c6ch c6bch (by decide) (by decide)
      (by decide) [("input".data, c6ch, some ["C".data])] (by decide)).2.2.1,
    (C6_partial_chain_diff c6cur c6base "input".data c6ch c6bch (by decide) (by decide)
      (by decide) [("input".data, c6ch, some ["C".data])] (by decide)).2.2.2⟩

/-! ### Lemmas: the brace scan (claim C8) -/

/-- Brace nesting delta of a string: openers minus closers. -/
def braceDelta : Str → Int
  | [] => 0
  | c :: rest => braceCharDelta c + braceDelta rest

theorem braceDelta_counts :
    ∀ l : Str, braceDelta l = (l.count '\x7b' : Int) - (l.count '\x7d' : Int) := by
  intro l
  induction l with
  | nil => simp [braceDelta]
  | cons c rest ih =>
    simp only [braceDelta, ih, braceCharDelta]
    by_cases h1 : c = '\x7b'
    · subst h1
      simp [List.count_cons]
      omega
    · by_cases h2 : c = '\x7d'
      · subst h2
        simp [List.count_cons, h1]
        omega
      · simp [List.count_cons, h1, h2]

theorem findCloseAux_some :
    ∀ (l : Str) (d : Int) (p q : Nat), findCloseAux l d p = some q →
      p ≤ q ∧ q - p < l.length ∧ l.getD (q - p) ' ' = '\x7d' ∧
      d + braceDelta (l.take (q - p + 1)) = 0 ∧
      ∀ m < q - p, ¬(l.getD m ' ' = '\x7d' ∧ d + braceDelta (l.take (m + 1)) = 0) := by
  intro l
  induction l with
  | nil =>
    intro d p q h
    exact absurd h (by simp [findCloseAux])
  | cons c rest ih =>
    intro d p q h
    rw [show findCloseAux (c :: rest) d p =
        (if c = '\x7d' && braceStep c d = 0 then some p
         else findCloseAux rest (braceStep c d) (p + 1)) from rfl] at h
    split at h
    · next hhit =>
      obtain rfl : p = q := Option.some_inj.1 h
      have hc2 : c = '\x7d' ∧ braceStep c d = 0 := by simpa using hhit
      have hq : p - p = 0 := by omega
      refine ⟨le_refl p, by simp, by simp [hq, hc2.1], ?_, ?_⟩
      · rw [hq]
        have : braceDelta ((c :: rest).take 1) = braceCharDelta c := by
          simp [braceDelta]
        rw [this]
        have := hc2.2
        rw [braceStep] at this
        exact this
      · intro m hm
        rw [hq] at hm
        exact absurd hm (Nat.not_lt_zero m)
    · next hhit =>
      obtain ⟨h1, h2, h3, h4, h5⟩ := ih (braceStep c d) (p + 1) q h
      have hq : q - p = (q - (p + 1)) + 1 := by omega
      have hmiss : ¬(c = '\x7d' ∧ braceStep c d = 0) := by
        intro hcon
        obtain ⟨hc1, hc2⟩ := hcon
        subst hc1
        exact hhit (by simp [hc2])
      refine ⟨by omega, by simp only [List.length_cons]; omega, ?_, ?_, ?_⟩
      · rw [hq, List.getD_cons_succ]
        exact h3
      · rw [hq, List.take_succ_cons]
        have hstep : braceDelta (c :: rest.take (q - (p + 1) + 1)) =
            braceCharDelta c + braceDelta (rest.take (q - (p + 1) + 1)) := rfl
        rw [hstep]
        rw [braceStep] at h4
        omega
      · intro m hm
        cases m with
        | zero =>
          intro hcon
          apply hmiss
          refine ⟨by simpa using hcon.1, ?_⟩
          have : braceDelta ((c :: rest).take 1) = braceCharDelta c := by
            simp [braceDelta]
          rw [this] at hcon
          rw [braceStep]
          omega
        | succ m' =>
          intro hcon
          apply h5 m' (by omega)
          rw [List.getD_cons_succ] at hcon
          rw [List.take_succ_cons] at hcon
          have hstep : braceDelta (c :: rest.take (m' + 1)) =
              braceCharDelta c + braceDelta (rest.take (m' + 1)) := rfl
          rw [hstep] at hcon
          refine ⟨hcon.1, ?_⟩
          rw [braceStep]
          omega

theorem findCloseAux_none :
    ∀ (l : Str) (d : Int) (p : Nat), findCloseAux l d p = none →
      ∀ n < l.length, ¬(l.getD n ' ' = '\x7d' ∧ d + braceDelta (l.take (n + 1)) = 0) := by
  intro l
  induction l with
  | nil =>
    intro d p _ n hn
    exact absurd hn (by simp)
  | cons c rest ih =>
    intro d p h n hn
    rw [show findCloseAux (c :: rest) d p =
        (if c = '\x7d' && braceStep c d = 0 then some p
         else findCloseAux rest (braceStep c d) (p + 1)) from rfl] at h
    split at h
    · exact absurd h (by simp)
    · next hhit =>
      have hmiss : ¬(c = '\x7d' ∧ braceStep c d = 0) := by
        intro hcon
        obtain ⟨hc1, hc2⟩ := hcon
        subst hc1
        exact hhit (by simp [hc2])
      cases n with
      | zero =>
        intro hcon
        apply hmiss
        refine ⟨by simpa using hcon.1, ?_⟩
        have hone : braceDelta ((c :: rest).take 1) = braceCharDelta c := by
          simp [braceDelta]
        rw [hone] at hcon
        rw [braceStep]
        omega
      | succ n' =>
        intro hcon
        apply ih (braceStep c d) (p + 1) h n' (by simpa using hn)
        rw [List.getD_cons_succ] at hcon
        rw [List.take_succ_cons] at hcon
        have hstep : braceDelta (c :: rest.take (n' + 1)) =
            braceCharDelta c + braceDelta (rest.take (n' + 1)) := rfl
        rw [hstep] at hcon
        refine ⟨hcon.1, ?_⟩
        rw [braceStep]
        omega

/-- C8: the brace scan and parse failure on unmatched braces.  First,
`braceDelta` is the count of openers minus closers.  Second, when the
scan succeeds it returns the position of the matching closing brace at
equal nesting depth: the character there is `}`, the slice from the
opening brace through it has zero delta, and no earlier position in the
slice is a closing brace with zero delta.  Third, when the scan starts at
an opening brace and fails, no such matching position exists at all.
Fourth, a failing scan for the first table's brace makes `Ruleset.parse`
fail (return `none`, the `ValueError`), not return a partial Ruleset.
Fifth, the same holds at EVERY state of the table loop: whatever cursor
text, order and table accumulator have been reached, if the table scan
finds a header whose brace has no match, the loop returns `none` — so a
later table's unmatched brace fails the parse too.  Sixth, likewise for
the chain loop over any body text: a scanned chain header whose brace
has no match makes the body parse return `none` (the propagated
`ValueError`; when the body lies between a table's matched braces such a
brace cannot in fact occur, so this covers the raise in full
generality).  Seventh, a successful iteration steps the loop to the text
after the table's closing brace with the table recorded — chaining this
equation with the fifth conjunct turns any later unmatched table brace
into a `Ruleset.parse` failure. -/
theorem C8_brace_matching :
    (∀ l : Str, braceDelta l = (l.count '\x7b' : Int) - (l.count '\x7d' : Int)) ∧
    (∀ (text : Str) (pos q : Nat), _find_matching_brace text pos = some q →
      pos ≤ q ∧ q - pos < (text.drop pos).length ∧
      (text.drop pos).getD (q - pos) ' ' = '\x7d' ∧
      braceDelta ((text.drop pos).take (q - pos + 1)) = 0 ∧
      ∀ m < q - pos, ¬((text.drop pos).getD m ' ' = '\x7d' ∧
        braceDelta ((text.drop pos).take (m + 1)) = 0)) ∧
    (∀ (text : Str) (pos : Nat), _find_matching_brace text pos = none →
      (text.drop pos).getD 0 ' ' = '\x7b' → text.drop pos ≠ [] →
      ∀ n < (text.drop pos).length, ¬((text.drop pos).getD n ' ' = '\x7d' ∧
        braceDelta ((text.drop pos).take (n + 1)) = 0)) ∧
    (∀ (x indent fam tname braceSuffix : Str),
      searchTable (strip_comments x) = some (indent, fam, tname, braceSuffix) →
      _find_matching_brace braceSuffix 0 = none → Ruleset.parse x = none) ∧
    (∀ (fuel : Nat) (cs : Str) (ord : List (Str × Str)) (tbls : List ((Str × Str) × Table))
        (indent fam tname braceSuffix : Str),
      searchTable cs = some (indent, fam, tname, braceSuffix) →
      _find_matching_brace braceSuffix 0 = none →
      parseLoop (fuel + 1) cs ord tbls = none) ∧
    (∀ (fuel : Nat) (body : Str) (ord : List Str) (chs : List (Str × Chain))
        (cindent cname csuffix : Str),
      searchChain body = some (cindent, cname, csuffix) →
      _find_matching_brace csuffix 0 = none →
      tableChainsLoop (fuel + 1) body ord chs = none) ∧
    (∀ (fuel : Nat) (cs : Str) (ord : List (Str × Str)) (tbls : List ((Str × Str) × Table))
        (indent fam tname braceSuffix : Str) (j : Nat) (cord : List Str)
        (chs : List (Str × Chain)),
      searchTable cs = some (indent, fam, tname, braceSuffix) →
      _find_matching_brace braceSuffix 0 = some j →
      parseTableBody ((braceSuffix.drop 1).take (j - 1)) = some (cord, chs) →
      parseLoop (fuel + 1) cs ord tbls
        = parseLoop fuel (braceSuffix.drop (j + 1)) (ord ++ [(fam, tname)])
            (dictSet tbls (fam, tname) (Table.mk fam tname indent cord chs))) := by
  refine ⟨braceDelta_counts, ?_, ?_, ?_, ?_, ?_, ?_⟩
  · intro text pos q h
    cases hd : text.drop pos with
    | nil =>
      have hred : _find_matching_brace text pos = none := by
        unfold _find_matching_brace
        rw [hd]
      rw [hred] at h
      exact absurd h (by simp)
    | cons c rest =>
      have hred : _find_matching_brace text pos =
          (if c = '\x7b' then findCloseAux (c :: rest) 0 pos else none) := by
        unfold _find_matching_brace
        rw [hd]
      rw [hred] at h
      by_cases hc : c = '\x7b'
      · rw [if_pos hc] at h
        have := findCloseAux_some (c :: rest) 0 pos q h
        simpa [hd] using this
      · rw [if_neg hc] at h
        exact absurd h (by simp)
  · intro text pos h hopen hne
    cases hd : text.drop pos with
    | nil => exact absurd hd hne
    | cons c rest =>
      have hc : c = '\x7b' := by
        rw [hd] at hopen
        simpa using hopen
      have hred : _find_matching_brace text pos =
          (if c = '\x7b' then findCloseAux (c :: rest) 0 pos else none) := by
        unfold _find_matching_brace
        rw [hd]
      rw [hred, if_pos hc] at h
      have := findCloseAux_none (c :: rest) 0 pos h
      simpa [hd] using this
  · intro x indent fam tname braceSuffix hsearch hfind
    unfold Ruleset.parse
    rw [parseLoop, hsearch]
    simp [hfind]
  · intro fuel cs ord tbls indent fam tname braceSuffix hsearch hfind
    rw [parseLoop, hsearch]
    simp [hfind]
  · intro fuel body ord chs cindent cname csuffix hsearch hfind
    rw [tableChainsLoop, hsearch]
    simp [hfind]
  · intro fuel cs ord tbls indent fam tname braceSuffix j cord chs hsearch hfind hbody
    rw [parseLoop, hsearch]
    rw [List.drop_one] at hbody
    simp [hfind, hbody]

/-- C8 witness: the brace-scan characterization at a concrete input; a
first table with an unmatched brace fails the parse; a SECOND table with
an unmatched brace fails the parse (one successful step chained with the
any-state failure conjunct); a chain scan hitting an unmatched brace
fails the body parse. -/
theorem C8_witness :
    (_find_matching_brace "\x7ba\x7b\x7d\x7d".data 0 = some 4 ∧
     ("\x7ba\x7b\x7d\x7d".data.drop 0).getD (4 - 0) ' ' = '\x7d' ∧
     braceDelta (("\x7ba\x7b\x7d\x7d".data.drop 0).take (4 - 0 + 1)) = 0) ∧
    Ruleset.parse "table ip f \x7b".data = none ∧
    Ruleset.parse "table ip a \x7bx\x7d\ntable ip b \x7b".data = none ∧
    tableChainsLoop 1 "chain c \x7b".data [] [] = none :=
  ⟨⟨by decide,
    (C8_brace_matching.2.1 "\x7ba\x7b\x7d\x7d".data 0 4 (by decide)).2.2.1,
    (C8_brace_matching.2.1 "\x7ba\x7b\x7d\x7d".data 0 4 (by decide)).2.2.2.1⟩,
   C8_brace_matching.2.2.2.1 "table ip f \x7b".data [] "ip".data "f".data "\x7b".data
     (by decide) (by decide),
   (by decide : Ruleset.parse "table ip a \x7bx\x7d\ntable ip b \x7b".data
       = parseLoop 28 "table ip a \x7bx\x7d\ntable ip b \x7b".data [] []).trans
     ((C8_brace_matching.2.2.2.2.2.2 27 "table ip a \x7bx\x7d\ntable ip b \x7b".data [] []
         [] "ip".data "a".data "\x7bx\x7d\ntable ip b \x7b".data 2 [] []
         (by decide) (by decide) (by decide)).trans
       (C8_brace_matching.2.2.2.2.1 26 ("\x7bx\x7d\ntable ip b \x7b".data.drop 3)
         ([] ++ [("ip".data, "a".data)])
         (dictSet [] ("ip".data, "a".data) (Table.mk "ip".data "a".data [] [] []))
         [] "ip".data "b".data "\x7b".data (by decide) (by decide))),
   C8_brace_matching.2.2.2.2.2.1 0 "chain c \x7b".data [] [] [] "c".data "\x7b".data
     (by decide) (by decide)⟩

/-! ### Lemmas: character shape of the DNAT-inference groups (claim C5) -/

theorem portBack_mem (run tail : Str) :
    ∀ (L : Nat) (port rest : Str), portBack run tail L = some (port, rest) →
      ∀ c ∈ port, c ∈ run := by
  intro L
  induction L with
  | zero => intro port rest h; exact absurd h (by simp [portBack])
  | succ l ih =>
    intro port rest h
    rw [portBack] at h
    split at h
    · have hpair := Option.some_inj.1 h
      have hp : run.take (l + 1) = port := congrArg Prod.fst hpair
      intro c hc
      exact List.take_subset (l + 1) run (hp ▸ hc)
    · exact ih port rest h

theorem addrBack_props (run tail : Str) :
    ∀ (L : Nat) (addr proto port rest : Str),
      addrBack run tail L = some (addr, proto, port, rest) →
      (∀ c ∈ addr, c ∈ run) ∧
      ∃ (prev : Char) (cs : Str), gapScanProto prev cs = some (proto, port, rest) := by
  intro L
  induction L with
  | zero => intro addr proto port rest h; exact absurd h (by simp [addrBack])
  | succ l ih =>
    intro addr proto port rest h
    rw [addrBack] at h
    split at h
    · next proto0 port0 rest0 hgap =>
      have hpair := Option.some_inj.1 h
      have ha : run.take (l + 1) = addr := congrArg (fun x => x.1) hpair
      have hp : proto0 = proto := congrArg (fun x => x.2.1) hpair
      have hq : port0 = port := congrArg (fun x => x.2.2.1) hpair
      have hr : rest0 = rest := congrArg (fun x => x.2.2.2) hpair
      refine ⟨?_, ?_⟩
      · intro c hc
        exact List.take_subset (l + 1) run (ha ▸ hc)
      · exact ⟨(run.take (l + 1)).getLastD 'x', run.drop (l + 1) ++ tail,
          by rw [hgap, hp, hq, hr]⟩
    · exact ih addr proto port rest h

theorem matchPPA_jp_digits (proto0 r1 proto port rest : Str)
    (h : ((ws1 r1).bind fun r2 => (parseLit "dport".data r2).bind fun r3 =>
          (ws1 r3).bind fun r4 =>
          if (List.takeWhile Char.isDigit r4).isEmpty = true then none
          else Option.map (fun pr => (proto0, pr.1, pr.2))
            (portBack (List.takeWhile Char.isDigit r4)
              (List.drop (List.takeWhile Char.isDigit r4).length r4)
              (List.takeWhile Char.isDigit r4).length)) = some (proto, port, rest)) :
    ∀ c ∈ port, c.isDigit = true := by
  obtain ⟨r2, -, h⟩ := Option.bind_eq_some.mp h
  obtain ⟨r3, -, h⟩ := Option.bind_eq_some.mp h
  obtain ⟨r4, -, h⟩ := Option.bind_eq_some.mp h
  replace h : (if (List.takeWhile Char.isDigit r4).isEmpty = true then none
      else Option.map (fun pr => (proto0, pr.1, pr.2))
        (portBack (List.takeWhile Char.isDigit r4)
          (List.drop (List.takeWhile Char.isDigit r4).length r4)
          (List.takeWhile Char.isDigit r4).length)) = some (proto, port, rest) := h
  split at h
  · exact absurd h (by simp)
  · obtain ⟨pr, hpb, hout⟩ := Option.map_eq_some'.mp h
    have hport : pr.1 = port := congrArg (fun x => x.2.1) hout
    intro c hc
    have hmem := portBack_mem _ _ _ pr.1 pr.2 hpb c (hport ▸ hc)
    exact List.mem_takeWhile_imp hmem

theorem matchProtoPortAccept_digits (prev : Char) (cs proto port rest : Str)
    (h : matchProtoPortAccept prev cs = some (proto, port, rest)) :
    ∀ c ∈ port, c.isDigit = true := by
  unfold matchProtoPortAccept at h
  split at h
  · exact absurd h (by simp)
  · simp only [] at h
    split at h
    · next r heq =>
      obtain ⟨pr1, hpr1, h⟩ := Option.bind_eq_some.mp h
      obtain rfl := Option.some_inj.mp hpr1
      exact matchPPA_jp_digits "tcp".data r proto port rest h
    · next heq =>
      obtain ⟨pr1, hpr1, h⟩ := Option.bind_eq_some.mp h
      obtain ⟨ru, -, hfr⟩ := Option.map_eq_some'.mp hpr1
      subst hfr
      exact matchPPA_jp_digits "udp".data ru proto port rest h

theorem gapScanProto_digits :
    ∀ (cs : Str) (prev : Char) (proto port rest : Str),
      gapScanProto prev cs = some (proto, port, rest) → ∀ c ∈ port, c.isDigit = true := by
  intro cs
  induction cs with
  | nil =>
    intro prev proto port rest h
    rw [gapScanProto] at h
    cases hm : matchProtoPortAccept prev [] with
    | none => rw [hm] at h; exact absurd h (by simp)
    | some r =>
      rw [hm] at h
      exact matchProtoPortAccept_digits prev [] proto port rest
        (by rw [hm, Option.some_inj.1 h])
  | cons c0 rest0 ih =>
    intro prev proto port rest h
    rw [gapScanProto] at h
    cases hm : matchProtoPortAccept prev (c0 :: rest0) with
    | some r =>
      rw [hm] at h
      exact matchProtoPortAccept_digits prev (c0 :: rest0) proto port rest
        (by rw [hm, Option.some_inj.1 h])
    | none =>
      rw [hm] at h
      replace h : (if c0 = '\n' then none else gapScanProto c0 rest0)
          = some (proto, port, rest) := h
      split at h
      · exact absurd h (by simp)
      · exact ih c0 proto port rest h

theorem matchIp6_props (cs addr proto port rest : Str)
    (h : matchIp6 cs = some (addr, proto, port, rest)) :
    (∀ c ∈ addr, isPySpace c = false) ∧ (∀ c ∈ port, c.isDigit = true) := by
  unfold matchIp6 at h
  cases h1 : parseLit "ip6".data cs with
  | none => rw [h1] at h; exact absurd h (by simp)
  | some r1 =>
    rw [h1] at h
    simp only [Option.bind_eq_bind, Option.some_bind] at h
    cases h2 : ws1 r1 with
    | none => rw [h2] at h; exact absurd h (by simp)
    | some r2 =>
      rw [h2] at h
      simp only [Option.some_bind] at h
      cases h3 : parseLit "daddr".data r2 with
      | none => rw [h3] at h; exact absurd h (by simp)
      | some r3 =>
        rw [h3] at h
        simp only [Option.some_bind] at h
        cases h4 : ws1 r3 with
        | none => rw [h4] at h; exact absurd h (by simp)
        | some r4 =>
          rw [h4] at h
          simp only [Option.some_bind] at h
          split at h
          · exact absurd h (by simp)
          · obtain ⟨hmem, prev, cs', hgap⟩ :=
              addrBack_props (r4.takeWhile (fun c => !(isPySpace c)))
                (r4.drop (r4.takeWhile (fun c => !(isPySpace c))).length)
                (r4.takeWhile (fun c => !(isPySpace c))).length addr proto port rest h
            refine ⟨?_, gapScanProto_digits cs' prev proto port rest hgap⟩
            intro c hc
            have := List.mem_takeWhile_imp (hmem c hc)
            simpa using this

theorem finditerDnat_addrs :
    ∀ (fuel : Nat) (cs : Str) (t : Str × Str × Str), t ∈ finditerDnat fuel cs →
      ∀ c ∈ t.1, isPySpace c = false := by
  intro fuel
  induction fuel with
  | zero => intro cs t ht; exact absurd ht (by simp [finditerDnat])
  | succ fuel ih =>
    intro cs t ht
    cases cs with
    | nil => exact absurd ht (by simp [finditerDnat])
    | cons c0 rest0 =>
      rw [finditerDnat] at ht
      split at ht
      · next addr proto port rest hm =>
        rcases List.mem_cons.1 ht with h1 | h1
        · subst h1
          exact (matchIp6_props (c0 :: rest0) addr proto port rest hm).1
        · exact ih rest t h1
      · exact ih rest0 t ht

theorem mappingFold_invariant (P : Str → Prop) :
    ∀ (ts : List (Str × Str × Str)) (m : List ((Str × Str) × List Str)),
      (∀ pr addrs, dictGet m pr = some addrs → ∀ a ∈ addrs, P a) →
      (∀ t ∈ ts, P t.1) →
      ∀ pr addrs,
        dictGet (ts.foldl (fun m t =>
          dictSet m (t.2.1, t.2.2)
            (addrInsert ((dictGet m (t.2.1, t.2.2)).getD []) t.1)) m) pr = some addrs →
        ∀ a ∈ addrs, P a := by
  intro ts
  induction ts with
  | nil => intro m hm _ pr addrs h; exact hm pr addrs h
  | cons t ts ih =>
    intro m hm hts pr addrs h
    rw [List.foldl_cons] at h
    refine ih _ ?_ (fun t' ht' => hts t' (List.mem_cons_of_mem t ht')) pr addrs h
    intro pr' addrs' h' a ha
    by_cases hk : pr' = (t.2.1, t.2.2)
    · subst hk
      rw [dictGet_dictSet_self] at h'
      obtain rfl : addrInsert ((dictGet m (t.2.1, t.2.2)).getD []) t.1 = addrs' :=
        Option.some_inj.1 h'
      unfold addrInsert at ha
      split at ha
      · cases hg : dictGet m (t.2.1, t.2.2) with
        | none => rw [hg] at ha; exact absurd ha (by simp)
        | some old =>
          rw [hg] at ha
          exact hm _ old hg a ha
      · rcases List.mem_append.1 ha with h1 | h1
        · cases hg : dictGet m (t.2.1, t.2.2) with
          | none => rw [hg] at h1; exact absurd h1 (by simp)
          | some old =>
            rw [hg] at h1
            exact hm _ old hg a h1
        · have : a = t.1 := by simpa using h1
          subst this
          exact hts t (List.mem_cons_self t ts)
    · rw [dictGet_dictSet_ne _ _ _ _ hk] at h'
      exact hm pr' addrs' h' a ha

theorem companionMapping_addrs (text : Str) :
    ∀ pr addrs, dictGet (companionMapping text) pr = some addrs →
      ∀ a ∈ addrs, ∀ c ∈ a, isPySpace c = false := by
  intro pr addrs h a ha
  exact mappingFold_invariant (fun a => ∀ c ∈ a, isPySpace c = false)
    (finditerDnat (text.length + 1) text) []
    (fun pr' addrs' h' => absurd h' (by simp [dictGet]))
    (fun t ht => finditerDnat_addrs (text.length + 1) text t ht)
    pr addrs h a ha

theorem tryPP_jp_digits (proto0 r1 proto port : Str)
    (h : ((ws1 r1).bind fun r2 => (parseLit "dport".data r2).bind fun r3 =>
          (ws1 r3).bind fun r4 =>
          if (List.takeWhile Char.isDigit r4).isEmpty = true then none
          else match List.drop (List.takeWhile Char.isDigit r4).length r4 with
            | [] => some (proto0, List.takeWhile Char.isDigit r4)
            | c :: _ => if isWordChar c then none
                else some (proto0, List.takeWhile Char.isDigit r4)) = some (proto, port)) :
    ∀ c ∈ port, c.isDigit = true := by
  obtain ⟨r2, -, h⟩ := Option.bind_eq_some.mp h
  obtain ⟨r3, -, h⟩ := Option.bind_eq_some.mp h
  obtain ⟨r4, -, h⟩ := Option.bind_eq_some.mp h
  replace h : (if (List.takeWhile Char.isDigit r4).isEmpty = true then none
      else match List.drop (List.takeWhile Char.isDigit r4).length r4 with
        | [] => some (proto0, List.takeWhile Char.isDigit r4)
        | c :: _ => if isWordChar c then none
            else some (proto0, List.takeWhile Char.isDigit r4)) = some (proto, port) := h
  split at h
  · exact absurd h (by simp)
  · split at h
    · have hpr := Option.some_inj.mp h
      have hport : List.takeWhile Char.isDigit r4 = port := congrArg Prod.snd hpr
      intro c hc
      exact List.mem_takeWhile_imp (hport ▸ hc)
    · split at h
      · exact absurd h (by simp)
      · have hpr := Option.some_inj.mp h
        have hport : List.takeWhile Char.isDigit r4 = port := congrArg Prod.snd hpr
        intro c hc
        exact List.mem_takeWhile_imp (hport ▸ hc)

theorem tryProtoPort_digits (cs proto port : Str)
    (h : tryProtoPort cs = some (proto, port)) : ∀ c ∈ port, c.isDigit = true := by
  unfold tryProtoPort at h
  simp only [] at h
  split at h
  · next r heq =>
    obtain ⟨pr1, hpr1, h⟩ := Option.bind_eq_some.mp h
    obtain rfl := Option.some_inj.mp hpr1
    exact tryPP_jp_digits "tcp".data r proto port h
  · next heq =>
    obtain ⟨pr1, hpr1, h⟩ := Option.bind_eq_some.mp h
    obtain ⟨ru, -, hfr⟩ := Option.map_eq_some'.mp hpr1
    subst hfr
    exact tryPP_jp_digits "udp".data ru proto port h

theorem protoPortFind_digits :
    ∀ (cs : Str) (prev : Option Char) (proto port : Str),
      protoPortFind prev cs = some (proto, port) → ∀ c ∈ port, c.isDigit = true := by
  intro cs
  induction cs with
  | nil => intro prev proto port h; exact absurd h (by simp [protoPortFind])
  | cons c0 rest0 ih =>
    intro prev proto port h
    simp only [protoPortFind] at h
    cases hb : isBoundary prev with
    | true =>
      rw [hb, if_pos rfl] at h
      cases htp : tryProtoPort (c0 :: rest0) with
      | some r =>
        rw [htp] at h
        exact tryProtoPort_digits (c0 :: rest0) proto port (by rw [htp]; exact h)
      | none =>
        rw [htp] at h
        replace h : protoPortFind (some c0) rest0 = some (proto, port) := h
        exact ih (some c0) proto port h
    | false =>
      rw [hb] at h
      replace h : protoPortFind (some c0) rest0 = some (proto, port) := h
      exact ih (some c0) proto port h

theorem replaceAllFuel_subset (needle repl : Str) :
    ∀ (fuel : Nat) (hay : Str) (c : Char), c ∈ replaceAllFuel needle repl fuel hay →
      c ∈ repl ∨ c ∈ hay := by
  intro fuel
  induction fuel with
  | zero => intro hay c hc; exact Or.inr (by simpa [replaceAllFuel] using hc)
  | succ fuel ih =>
    intro hay c hc
    cases hay with
    | nil => exact absurd hc (by simp [replaceAllFuel])
    | cons a rest =>
      rw [replaceAllFuel] at hc
      split at hc
      · rcases List.mem_append.1 hc with h1 | h1
        · exact Or.inl h1
        · rcases ih _ c h1 with h2 | h2
          · exact Or.inl h2
          · exact Or.inr (List.drop_subset _ _ h2)
      · rcases List.mem_cons.1 hc with h1 | h1
        · exact Or.inr (h1 ▸ List.mem_cons_self a rest)
        · rcases ih rest c h1 with h2 | h2
          · exact Or.inl h2
          · exact Or.inr (List.mem_cons_of_mem a h2)

theorem replaceAll_subset (needle repl hay : Str) (c : Char)
    (hc : c ∈ replaceAll needle repl hay) : c ∈ repl ∨ c ∈ hay := by
  unfold replaceAll at hc
  split at hc
  · exact Or.inr hc
  · exact replaceAllFuel_subset needle repl hay.length hay c hc

theorem fixLine_eq (m : List ((Str × Str) × List Str)) (line : Str) :
    fixLine m line =
      if ((containsSub dnatNeedle line && !containsSub "to:".data line)
          && !containsSub "dnat to".data line) = true then
        match protoPortFind none line with
        | some (proto, port) =>
          match (dictGet m (proto, port)).getD [] with
          | [a] => replaceAll dnatNeedle ("dnat to ".data ++ fmtAddr a ++ ':' :: port) line
          | _ => line
        | none => line
      else line := rfl

theorem fixLine_no_nl (m : List ((Str × Str) × List Str))
    (hm : ∀ pr addrs, dictGet m pr = some addrs → ∀ a ∈ addrs, ∀ c ∈ a, isPySpace c = false)
    (line : Str) (hl : '\n' ∉ line) : '\n' ∉ fixLine m line := by
  rw [fixLine_eq]
  split
  · split
    · next proto port hpp =>
      split
      · next a heq =>
        intro hmem
        rcases replaceAll_subset _ _ _ _ hmem with h1 | h1
        · have haProp : ∀ c ∈ a, isPySpace c = false := by
            cases hdg : dictGet m (proto, port) with
            | none => rw [hdg] at heq; exact absurd heq (by simp)
            | some addrs =>
              rw [hdg] at heq
              have haddr : a ∈ addrs := by
                have : addrs = [a] := by simpa using heq
                simp [this]
              exact hm (proto, port) addrs hdg a haddr
          rcases List.mem_append.1 h1 with h2 | h2
          · rcases List.mem_append.1 h2 with h3 | h3
            · exact (by decide : ('\n' : Char) ∉ "dnat to ".data) h3
            · have : isPySpace '\n' = false := by
                unfold fmtAddr at h3
                split at h3
                · rcases List.mem_cons.1 h3 with h4 | h4
                  · exact absurd h4 (by decide)
                  · rcases List.mem_append.1 h4 with h5 | h5
                    · exact haProp '\n' h5
                    · exact absurd h5 (by decide)
                · exact haProp '\n' h3
              exact absurd this (by decide)
          · rcases List.mem_cons.1 h2 with h4 | h4
            · exact absurd h4 (by decide)
            · have := protoPortFind_digits line none proto port hpp '\n' h4
              exact absurd this (by decide)
        · exact hl h1
      · exact hl
    · exact hl
  · exact hl

theorem fix_line_at (text : Str) (i : Nat) (hi : i < (pySplitlines text).length) :
    (pySplitlines (_fix_xt_dnat_without_to text)).getD i []
      = fixLine (companionMapping text) ((pySplitlines text).getD i []) := by
  have hnn : ∀ l ∈ (pySplitlines text).map (fixLine (companionMapping text)), '\n' ∉ l := by
    intro l hl
    obtain ⟨l0, hl0, rfl⟩ := List.mem_map.1 hl
    exact fixLine_no_nl _ (companionMapping_addrs text) l0 (mem_pySplitlines_no_nl text l0 hl0)
  have hpos : 0 < (pySplitlines text).length := Nat.lt_of_le_of_lt (Nat.zero_le i) hi
  have hne : (pySplitlines text).map (fixLine (companionMapping text)) ≠ [] := by
    rw [← List.length_pos, List.length_map]
    exact hpos
  have hmap : ((pySplitlines text).map (fixLine (companionMapping text))).getD i []
      = fixLine (companionMapping text) ((pySplitlines text).getD i []) := by
    rw [List.getD_eq_getElem?_getD, List.getElem?_map, List.getD_eq_getElem?_getD,
      List.getElem?_eq_getElem hi]
    simp
  unfold _fix_xt_dnat_without_to
  rw [pySplitlines_joinNl _ hnn hne]
  split
  · next hlast =>
    by_cases hi2 : i < ((pySplitlines text).map (fixLine (companionMapping text))).length - 1
    · rw [List.getD_eq_getElem?_getD, List.getElem?_dropLast, if_pos hi2,
        ← List.getD_eq_getElem?_getD]
      exact hmap
    · have hieq : ((pySplitlines text).map (fixLine (companionMapping text))).length - 1 = i := by
        rw [List.length_map] at hi2 ⊢
        omega
      have hnil : ((pySplitlines text).map (fixLine (companionMapping text)))[i]? = some [] := by
        rw [List.getLast?_eq_getElem?, hieq] at hlast
        exact hlast
      rw [List.getD_eq_getElem?_getD, List.getElem?_dropLast, if_neg hi2, ← hmap,
        List.getD_eq_getElem?_getD, hnil]
      rfl
  · exact hmap

theorem fixLine_eq_found (m : List ((Str × Str) × List Str)) (line proto port : Str)
    (hc : ((containsSub dnatNeedle line && !containsSub "to:".data line)
        && !containsSub "dnat to".data line) = true)
    (hpp : protoPortFind none line = some (proto, port)) :
    fixLine m line =
      match (dictGet m (proto, port)).getD [] with
      | [a] => replaceAll dnatNeedle ("dnat to ".data ++ fmtAddr a ++ ':' :: port) line
      | _ => line := by
  rw [fixLine_eq, if_pos hc, hpp]

/-- C5: DNAT destination inference. For any line of the input text that
contains `xt target "DNAT"` with no `to:` and no `dnat to` (an un-destined
DNAT), and whose first `\b(tcp|udp)\s+dport\s+(\d+)\b` match yields
`(proto, port)`: if the companion mapping built from the whole text binds
`(proto, port)` to exactly one distinct address `a`, the corresponding
output line of `_fix_xt_dnat_without_to` is the line with every
`xt target "DNAT"` replaced by `dnat to <fmtAddr a>:<port>` (the address
bracketed exactly when it contains a colon and is not already bracketed,
which is what `fmtAddr` does); if the mapping binds `(proto, port)` to a
set of addresses whose size is not one, or has no binding for it, the line
is left unchanged. -/
theorem C5_dnat_inference (text : Str) (i : Nat) (proto port : Str)
    (hi : i < (pySplitlines text).length)
    (hbad : containsSub dnatNeedle ((pySplitlines text).getD i []) = true)
    (hto : containsSub "to:".data ((pySplitlines text).getD i []) = false)
    (hdn : containsSub "dnat to".data ((pySplitlines text).getD i []) = false)
    (hpp : protoPortFind none ((pySplitlines text).getD i []) = some (proto, port)) :
    (∀ a, dictGet (companionMapping text) (proto, port) = some [a] →
        (pySplitlines (_fix_xt_dnat_without_to text)).getD i []
          = replaceAll dnatNeedle ("dnat to ".data ++ fmtAddr a ++ ':' :: port)
              ((pySplitlines text).getD i [])) ∧
    (∀ addrs, dictGet (companionMapping text) (proto, port) = some addrs →
        addrs.length ≠ 1 →
        (pySplitlines (_fix_xt_dnat_without_to text)).getD i []
          = (pySplitlines text).getD i []) ∧
    (dictGet (companionMapping text) (proto, port) = none →
        (pySplitlines (_fix_xt_dnat_without_to text)).getD i []
          = (pySplitlines text).getD i []) := by
  have hline := fix_line_at text i hi
  have hcond : ((containsSub dnatNeedle ((pySplitlines text).getD i [])
      && !containsSub "to:".data ((pySplitlines text).getD i []))
      && !containsSub "dnat to".data ((pySplitlines text).getD i [])) = true := by
    rw [hbad, hto, hdn]; rfl
  refine ⟨?_, ?_, ?_⟩
  · intro a ha
    rw [hline, fixLine_eq_found (companionMapping text) _ proto port hcond hpp, ha]
    rfl
  · intro addrs haddrs hlen
    rw [hline, fixLine_eq_found (companionMapping text) _ proto port hcond hpp, haddrs]
    cases addrs with
    | nil => rfl
    | cons a t =>
      cases t with
      | nil => simp at hlen
      | cons b t2 => rfl
  · intro hnone
    rw [hline, fixLine_eq_found (companionMapping text) _ proto port hcond hpp, hnone]
    rfl

/-- Concrete input for the C5 witness: an un-destined DNAT line followed by
its unique companion rule. -/
def c5text : Str :=
  ("tcp dport 8080 xt target \"DNAT\"\n" ++
   "ip6 daddr 2001:db8::5 tcp dport 8080 accept").data

theorem C5_witness :
    (0 < (pySplitlines c5text).length ∧
     containsSub dnatNeedle ((pySplitlines c5text).getD 0 []) = true ∧
     protoPortFind none ((pySplitlines c5text).getD 0 [])
       = some ("tcp".data, "8080".data) ∧
     dictGet (companionMapping c5text) ("tcp".data, "8080".data)
       = some ["2001:db8::5".data]) ∧
    (pySplitlines (_fix_xt_dnat_without_to c5text)).getD 0 []
      = replaceAll dnatNeedle
          ("dnat to ".data ++ fmtAddr "2001:db8::5".data ++ ':' :: "8080".data)
          ((pySplitlines c5text).getD 0 []) ∧
    (pySplitlines (_fix_xt_dnat_without_to c5text)).getD 0 []
      = "tcp dport 8080 dnat to [2001:db8::5]:8080".data :=
  ⟨⟨by decide, by decide, by decide, by decide⟩,
   (C5_dnat_inference c5text 0 "tcp".data "8080".data (by decide) (by decide) (by decide)
      (by decide) (by decide)).1 "2001:db8::5".data (by decide),
   by decide⟩

end NftDiff
